import Mathlib

/-!
Gauss quadrature for the logarithmic weight: a verification development.

Shallow embedding of `src/GQJacobi/gauss-log.hpp` (class `GQLog::GaussLogRule<T>`).

Modelling conventions.

* The scalar type `T` of the class template is an arbitrary linearly ordered field `K`
  (exact arithmetic); `double` parameters are values of the same field.
* `std::size_t` and `int` counters are natural numbers; the sizes that occur are far
  below the machine word, so no wrap-around is modelled.
* An Eigen dynamic matrix is its two dimensions together with its entries,
  an Eigen dynamic vector its size together with its entries.
* A `for (int i = lo; i < hi; i++)` loop is `forLoop lo hi body`.
* A failed `assert` aborts the program: the embedded function returns `none`.
* For the bounds of element accesses, `chebyshev` has a second embedding in which every
  access is checked against the dimensions of its container (`chebyshevChecked`); it is
  proved to agree with the plain one.
* Calls on an object return the data members of the object after the call next to
  their result (`run_log_nw`, `run_call`).
* The library functions the header calls (`sqrt`, `pow` with a real exponent, `tgamma`,
  `boost::math::digamma`, `Eigen::SelfAdjointEigenSolver`) are parameters.
-/

namespace GQLog

/-! ## Containers -/

/-- Dense matrix of dynamic size: `Eigen::Matrix<T, Dynamic, Dynamic>`. -/
structure Mat (K : Type) where
  rows : Nat
  cols : Nat
  get : Nat → Nat → K

/-- Dense column vector of dynamic size: `Eigen::Vector<T, Dynamic>`. -/
structure Vec (K : Type) where
  size : Nat
  get : Nat → K

/-- The all-zero matrix `Matrix::Zero(r, c)`. -/
def Mat.Zero {K : Type} [Field K] (r c : Nat) : Mat K :=
  ⟨r, c, fun _ _ => 0⟩

/-- The all-zero vector `Vector::Zero(n)`. -/
def Vec.Zero {K : Type} [Field K] (n : Nat) : Vec K :=
  ⟨n, fun _ => 0⟩

/-- Assignment `M(i, j) = v`. -/
def Mat.set {K : Type} (M : Mat K) (i j : Nat) (v : K) : Mat K :=
  { M with get := fun a b => if a = i ∧ b = j then v else M.get a b }

/-- Assignment `x[i] = v`. -/
def Vec.set {K : Type} (x : Vec K) (i : Nat) (v : K) : Vec K :=
  { x with get := fun a => if a = i then v else x.get a }

/-- Assignment `M.row(i) = v`. -/
def Mat.setRow {K : Type} (M : Mat K) (i : Nat) (v : Vec K) : Mat K :=
  { M with get := fun a b => if a = i ∧ b < M.cols then v.get b else M.get a b }

/-- Assignment `M.col(j) = v`. -/
def Mat.setCol {K : Type} (M : Mat K) (j : Nat) (v : Vec K) : Mat K :=
  { M with get := fun a b => if b = j ∧ a < M.rows then v.get a else M.get a b }

/-- Column view `M.col(j)`. -/
def Mat.col {K : Type} (M : Mat K) (j : Nat) : Vec K :=
  ⟨M.rows, fun i => M.get i j⟩

/-! ## Loops -/

/-- Runs `body i`, then `body (i+1)`, ... for `count` consecutive counter values. -/
def loopFrom {σ : Type} (body : Nat → σ → σ) : Nat → Nat → σ → σ
  | _, 0, s => s
  | i, c + 1, s => loopFrom body (i + 1) c (body i s)

/-- The loop `for (int i = lo; i < hi; i++) body`. -/
def forLoop {σ : Type} (lo hi : Nat) (body : Nat → σ → σ) (s : σ) : σ :=
  loopFrom body lo (hi - lo) s

/-! ## Library functions used by the header -/

/-- The numeric library functions the header calls on scalars. -/
structure Scalar (K : Type) where
  /-- The function `sqrt`. -/
  sqrt : K → K
  /-- The function `pow(x, y)` with a real exponent. -/
  pow : K → K → K
  /-- The function `tgamma`. -/
  tgamma : K → K
  /-- The function `boost::math::digamma`. -/
  digamma : K → K

/-- The gamma function is exact at the positive integers: `Γ(m+1) = m!`. -/
def GammaExact {K : Type} [Field K] (S : Scalar K) : Prop :=
  ∀ m : Nat, S.tgamma ((m : K) + 1) = (m.factorial : K)

/-- The digamma function obeys `ψ(x+1) = ψ(x) + 1/x` at the positive integers. -/
def DigammaExact {K : Type} [Field K] (S : Scalar K) : Prop :=
  ∀ m : Nat, S.digamma ((m : K) + 1 + 1) - S.digamma ((m : K) + 1) = 1 / ((m : K) + 1)

/-- What `Eigen::SelfAdjointEigenSolver` hands back: eigenvalues and eigenvectors
(one eigenvector per column). -/
structure EigenResult (K : Type) where
  eigenvalues : Vec K
  eigenvectors : Mat K

/-- Squared Euclidean norm `v.squaredNorm()`. -/
def squaredNorm {K : Type} [Field K] (v : Vec K) : K :=
  forLoop 0 v.size (fun i acc => acc + v.get i * v.get i) 0

/-- Eigen's `v.normalized()`: `v / sqrt(z)` when `z = v.squaredNorm()` is positive,
`v` itself otherwise. -/
def normalized {K : Type} [LinearOrderedField K] (S : Scalar K) (v : Vec K) : Vec K :=
  let z := squaredNorm v
  if z > 0 then ⟨v.size, fun i => v.get i / S.sqrt z⟩ else v

/-- Eigen's `LinSpaced(size, low, high)` for `|low| ≤ |high|`: entry `i` is `high` at the
last index and `low + i * step` before it, with `step = (high - low) / (size - 1)`. -/
def LinSpaced {K : Type} [Field K] (size : Nat) (low high : K) : Vec K :=
  let size1 : Nat := if size = 1 then 1 else size - 1
  let step : K := if size = 1 then 0 else (high - low) / ((size - 1 : Nat) : K)
  ⟨size, fun i => if i = size1 then high else low + (i : K) * step⟩

/-! ## The class `GaussLogRule<T>` -/

/-- The data members of `GaussLogRule<T>`. -/
structure GaussLogRule (K : Type) where
  nodes : List K
  weights : List K
  degree : Nat

/-- The constructor `GaussLogRule(std::size_t n)`: `assert(n>1); degree = n;`.
The two vectors are default-constructed (empty). -/
def GaussLogRule.ctor {K : Type} (n : Nat) : Option (GaussLogRule K) :=
  if n > 1 then some { nodes := [], weights := [], degree := n } else none

/-- The method `c_jacobi(n, a, b)`. -/
def c_jacobi {K : Type} [Field K] (S : Scalar K) (n : Nat) (a b : K) : Mat K :=
  let coeffs : Mat K := Mat.Zero n 2
  let a0 : K := (b - a) / (a + b + 2)
  let b0 : K := S.pow 2 (a + b + 1) * ((S.tgamma (a + 1) * S.tgamma (b + 1)) / S.tgamma (a + b + 2))
  if n = 1 then
    (coeffs.set 0 0 a0).set 0 1 b0
  else
    let coeffs := coeffs.set 0 0 a0
    let deg : Vec K := LinSpaced (n - 1) 1 ((n - 1 : Nat) : K)
    let ndeg : Vec K := ⟨n - 1, fun j => 2 * deg.get j + 1 * (a + b)⟩
    let coeffs := forLoop 1 n (fun i c =>
      c.set i 0 ((b ^ 2 - a ^ 2) / (ndeg.get (i - 1) * (ndeg.get (i - 1) + 2)))) coeffs
    let coeffs := coeffs.set 0 1 b0
    let coeffs := coeffs.set 1 1 (4 * (a + 1) * (b + 1) / ((a + b + 2) ^ 2 * (a + b + 3)))
    forLoop 2 n (fun i c =>
      c.set i 1 ((4 * ((i : K) * ((i : K) + b) * ((i : K) + a) * ((i : K) + a + b)))
        / (ndeg.get (i - 1) ^ 2 * (ndeg.get (i - 1) - 1) * (ndeg.get (i - 1) + 1)))) coeffs

/-- The method `mom_jaclog(n)`. -/
def mom_jaclog {K : Type} [Field K] (S : Scalar K) (n : Nat) : Vec K :=
  forLoop 0 (2 * n) (fun i mom =>
    let k : Nat := i + 1
    mom.set i (S.tgamma 1 * S.tgamma (k : K) * (S.digamma ((k : K) + 1) - S.digamma (k : K))
      / S.tgamma ((k : K) + 1))) (Vec.Zero (2 * n))

/-- The method `chebyshev(n, abm, mom)`. -/
def chebyshev {K : Type} [Field K] (n : Nat) (abm : Mat K) (mom : Vec K) : Mat K :=
  let sig : Mat K := Mat.Zero (n + 1) (2 * n)
  let ab : Mat K := Mat.Zero n 2
  let ab := ab.set 0 0 (abm.get 0 0 + mom.get 1 / mom.get 0)
  let ab := ab.set 0 1 (mom.get 0)
  let sig := sig.setRow 1 mom
  (forLoop 2 (n + 1) (fun i (st : Mat K × Mat K) =>
    let sig := forLoop (i - 1) (2 * n - i + 1) (fun k sig =>
      sig.set i k (sig.get (i - 1) (k + 1)
        - (st.2.get (i - 2) 0 - abm.get k 0) * sig.get (n - 1) k
        - st.2.get (i - 2) 1 * sig.get (i - 2) k
        + abm.get k 1 * sig.get (i - 1) (k - 1))) st.1
    let ab := st.2.set (i - 1) 0 (abm.get (i - 1) 0 + sig.get i i / sig.get i (i - 1)
      - sig.get (i - 1) (i - 1) / sig.get (i - 1) (i - 2))
    let ab := ab.set (i - 1) 1 (sig.get i (i - 1) / sig.get (i - 1) (i - 2))
    (sig, ab)) (sig, ab)).2

/-- The overload `chebyshev(n, mom)` taking plain moments: its body is the body of
`chebyshev(n, abm, mom)` run on the local all-zero table `abm` of `2n-1` rows. -/
def chebyshev_mom {K : Type} [Field K] (n : Nat) (mom : Vec K) : Mat K :=
  let abm : Mat K := Mat.Zero (2 * n - 1) 2
  chebyshev n abm mom

/-- The method `tridiagCoeffs(coeffs, n)`; `none` when one of the two size assertions
fails. -/
def tridiagCoeffs {K : Type} [Field K] (S : Scalar K) (coeffs : Mat K) (n : Nat) :
    Option (Mat K) :=
  if coeffs.rows ≠ n then none
  else if coeffs.cols ≠ 2 then none
  else
    let tridiag : Mat K := Mat.Zero n n
    let tridiag := tridiag.set 0 0 (coeffs.get 0 0)
    some (forLoop 1 n (fun i t =>
      let t := t.set i i (coeffs.get i 0)
      let t := t.set i (i - 1) (S.sqrt (coeffs.get i 1))
      t.set (i - 1) i (S.sqrt (coeffs.get i 1))) tridiag)

/-- The method `log_nw(n)`, with the eigen-solver `solve` as a parameter. -/
def log_nw {K : Type} [LinearOrderedField K] (S : Scalar K) (solve : Mat K → EigenResult K)
    (n : Nat) : Option (Mat K) :=
  let gamma_0 : K := 1
  let mom := mom_jaclog S n
  let coeffs := chebyshev_mom n mom
  match tridiagCoeffs S coeffs n with
  | none => none
  | some J_n =>
    let nodes := (solve J_n).eigenvalues
    let eigenvecs := (solve J_n).eigenvectors
    let weights := forLoop 0 n (fun i w =>
      w.set i (gamma_0 * ((normalized S (eigenvecs.col i)).get 0) ^ 2)) (Vec.Zero n)
    let nw : Mat K := Mat.Zero n 2
    let nw := nw.setCol 0 nodes
    let nw := nw.setCol 1 weights
    some nw

/-- The call operator `operator()(f)`. -/
def GaussLogRule.call {K : Type} [LinearOrderedField K] (self : GaussLogRule K) (S : Scalar K)
    (solve : Mat K → EigenResult K) (f : K → K) : Option K :=
  match log_nw S solve self.degree with
  | none => none
  | some nw =>
    some (forLoop 0 (nw.col 0).size (fun i quad => quad + nw.get i 1 * f (nw.get i 0 - 1)) 0)

/-! ## Fixtures: concrete library functions and tables -/

/-- Exact rational stand-ins for the library functions at the arguments the header
passes: `sqrt` on squares of rationals, `pow` with an integer exponent, `Γ(k) = (k-1)!`
and `ψ(k) + γ = H_{k-1}` at positive integers `k`. -/
def ratScalar : Scalar ℚ where
  sqrt q := (Nat.sqrt q.num.toNat : ℚ) / (Nat.sqrt q.den : ℚ)
  pow x y := x ^ y.num
  tgamma q := ((q.num.toNat - 1).factorial : ℚ)
  digamma q := harmonic (q.num.toNat - 1)

/-- The coefficient table `[(2, b0), (3, 4)]`. -/
def sampleTable {K : Type} [Field K] (b0 : K) : Mat K :=
  (((Mat.Zero 2 2).set 0 0 2).set 0 1 b0 |>.set 1 0 3).set 1 1 4

/-- A corrupted coefficient table `[(2, 1), (3, -1)]` with a negative `β₁`. -/
def negBetaTable : Mat ℚ :=
  (((Mat.Zero 2 2).set 0 0 2).set 0 1 1 |>.set 1 0 3).set 1 1 (-1)

/-- The eigen-solver answer `r` is an exact orthonormal eigen-decomposition of the `n×n`
matrix `J`: `n` eigenvalues, an `n×n` matrix of eigenvectors whose columns are
orthonormal, and column `j` is an eigenvector for eigenvalue `j`. -/
def ExactEigen {K : Type} [Field K] (n : Nat) (J : Mat K) (r : EigenResult K) : Prop :=
  r.eigenvalues.size = n ∧ r.eigenvectors.rows = n ∧ r.eigenvectors.cols = n ∧
  (∀ i j : Nat, i < n → j < n →
    Finset.sum (Finset.range n) (fun k => r.eigenvectors.get k i * r.eigenvectors.get k j)
      = if i = j then 1 else 0) ∧
  (∀ i j : Nat, i < n → j < n →
    Finset.sum (Finset.range n) (fun k => J.get i k * r.eigenvectors.get k j)
      = r.eigenvalues.get j * r.eigenvectors.get i j)

/-- The library `sqrt` is exact on non-negative scalars. -/
def SqrtExact {K : Type} [LinearOrderedField K] (S : Scalar K) : Prop :=
  ∀ x : K, 0 ≤ x → 0 ≤ S.sqrt x ∧ S.sqrt x * S.sqrt x = x

/-- The eigen-decomposition of a `1×1` matrix: its entry, with eigenvector `[1]`. -/
def unitSolve {K : Type} [Field K] (J : Mat K) : EigenResult K :=
  ⟨⟨1, fun _ => J.get 0 0⟩, ⟨1, 1, fun _ _ => 1⟩⟩

/-- The library functions over the reals: `sqrt`, real powers, `Γ`, and the digamma
function at positive integers, `ψ(k) = H_{k-1} - γ`. -/
noncomputable def realScalar : Scalar ℝ where
  sqrt := Real.sqrt
  pow x y := x ^ y
  tgamma := Real.Gamma
  digamma x := (harmonic (⌊x⌋₊ - 1) : ℝ) - Real.eulerMascheroniConstant

/-- Square matrix over `Fin n` read off the top-left `n×n` block of a `Mat`. -/
def Mat.toMatrix {K : Type} (n : Nat) (M : Mat K) : Matrix (Fin n) (Fin n) K :=
  Matrix.of (fun i j => M.get i.val j.val)

/-- An ideal eigen-solver over the reals: the orthonormal eigen-decomposition that the
spectral theorem provides for a symmetric matrix (zero answer on other matrices). -/
noncomputable def spectralSolve (J : Mat ℝ) : EigenResult ℝ :=
  if h : (J.toMatrix J.rows).IsHermitian then
    ⟨⟨J.rows, fun i => if hi : i < J.rows then h.eigenvalues ⟨i, hi⟩ else 0⟩,
     ⟨J.rows, J.rows, fun i j =>
        if hij : i < J.rows ∧ j < J.rows then
          (h.eigenvectorUnitary : Matrix (Fin J.rows) (Fin J.rows) ℝ) ⟨i, hij.1⟩ ⟨j, hij.2⟩
        else 0⟩⟩
  else ⟨Vec.Zero J.rows, Mat.Zero J.rows J.rows⟩

/-! ## Orthogonal polynomials of a moment functional (specification side) -/

/-- Sum of two polynomials given by their coefficient lists (constant term first). -/
def polyAdd {K : Type} [Field K] : List K → List K → List K
  | [], q => q
  | p, [] => p
  | a :: p, b :: q => (a + b) :: polyAdd p q

/-- Scalar multiple `c · p` of a polynomial. -/
def polyScale {K : Type} [Field K] (c : K) (p : List K) : List K :=
  p.map (fun a => c * a)

/-- The product `x · p`. -/
def polyMulX {K : Type} [Field K] (p : List K) : List K :=
  0 :: p

/-- The monic polynomials of a coefficient table, in the words of the specification:
`π₀ = 1`, `π₁ = x − α₀` and `πⱼ₊₁ = (x − αⱼ)·πⱼ − βⱼ·πⱼ₋₁`. -/
def monicPoly {K : Type} [Field K] (ab : Mat K) : Nat → List K
  | 0 => [1]
  | 1 => [-(ab.get 0 0), 1]
  | j + 2 =>
    polyAdd
      (polyAdd (polyMulX (monicPoly ab (j + 1)))
        (polyScale (-(ab.get (j + 1) 0)) (monicPoly ab (j + 1))))
      (polyScale (-(ab.get (j + 1) 1)) (monicPoly ab j))

/-- The moment functional `L(xᵏ) = mom[k]` applied to `p · xʲ`. -/
def momentFunctional {K : Type} [Field K] (mom : Vec K) : Nat → List K → K
  | _, [] => 0
  | j, c :: p => c * mom.get j + momentFunctional mom (j + 1) p

/-- The `k×k` Hankel matrix `(mom[i+j])` of a moment vector. -/
def hankel {K : Type} (mom : Vec K) (k : Nat) : Matrix (Fin k) (Fin k) K :=
  Matrix.of (fun i j => mom.get (i.val + j.val))

/-- The Hankel determinants of orders `1, ..., n` are positive. -/
def HankelPositive {K : Type} [LinearOrderedField K] (n : Nat) (mom : Vec K) : Prop :=
  ∀ k : Nat, 1 ≤ k → k ≤ n → 0 < (hankel mom k).det

/-- The first six moments `1/(k+1)²` of the weight `−log(x)` on `[0,1]`. -/
def logMoments6 : Vec ℚ :=
  ⟨6, fun k => 1 / (((k : ℚ) + 1) ^ 2)⟩

/-- The modified Chebyshev recursion as the literature states it: the loop of
`chebyshev(n, abm, mom)` with the band term `σ[i−1][k]` read from row `i-1`. -/
def chebyshevTextbook {K : Type} [Field K] (n : Nat) (abm : Mat K) (mom : Vec K) : Mat K :=
  let sig : Mat K := Mat.Zero (n + 1) (2 * n)
  let ab : Mat K := Mat.Zero n 2
  let ab := ab.set 0 0 (abm.get 0 0 + mom.get 1 / mom.get 0)
  let ab := ab.set 0 1 (mom.get 0)
  let sig := sig.setRow 1 mom
  (forLoop 2 (n + 1) (fun i (st : Mat K × Mat K) =>
    let sig := forLoop (i - 1) (2 * n - i + 1) (fun k sig =>
      sig.set i k (sig.get (i - 1) (k + 1)
        - (st.2.get (i - 2) 0 - abm.get k 0) * sig.get (i - 1) k
        - st.2.get (i - 2) 1 * sig.get (i - 2) k
        + abm.get k 1 * sig.get (i - 1) (k - 1))) st.1
    let ab := st.2.set (i - 1) 0 (abm.get (i - 1) 0 + sig.get i i / sig.get i (i - 1)
      - sig.get (i - 1) (i - 1) / sig.get (i - 1) (i - 2))
    let ab := ab.set (i - 1) 1 (sig.get i (i - 1) / sig.get (i - 1) (i - 2))
    (sig, ab)) (sig, ab)).2

/-! ## The loop of `chebyshev`, piece by piece -/

/-- The assignment `sig(i,k) = ...` in the inner loop of `chebyshev`, for the outer
counter `i`, the inner counter `k` and the table `ab` as the outer iteration found it. -/
def chebInner {K : Type} [Field K] (n : Nat) (abm ab : Mat K) (i k : Nat) (sig : Mat K) :
    Mat K :=
  sig.set i k (sig.get (i - 1) (k + 1)
    - (ab.get (i - 2) 0 - abm.get k 0) * sig.get (n - 1) k
    - ab.get (i - 2) 1 * sig.get (i - 2) k
    + abm.get k 1 * sig.get (i - 1) (k - 1))

/-- One iteration of the outer loop of `chebyshev` on the pair `(sig, ab)`. -/
def chebOuter {K : Type} [Field K] (n : Nat) (abm : Mat K) (i : Nat) (st : Mat K × Mat K) :
    Mat K × Mat K :=
  let sig := forLoop (i - 1) (2 * n - i + 1) (chebInner n abm st.2 i) st.1
  let ab := st.2.set (i - 1) 0 (abm.get (i - 1) 0 + sig.get i i / sig.get i (i - 1)
    - sig.get (i - 1) (i - 1) / sig.get (i - 1) (i - 2))
  let ab := ab.set (i - 1) 1 (sig.get i (i - 1) / sig.get (i - 1) (i - 2))
  (sig, ab)

/-- The pair `(sig, ab)` of `chebyshev` when its outer loop starts. -/
def chebInit {K : Type} [Field K] (n : Nat) (abm : Mat K) (mom : Vec K) : Mat K × Mat K :=
  (((Mat.Zero (n + 1) (2 * n) : Mat K).setRow 1 mom),
   (((Mat.Zero n 2 : Mat K).set 0 0 (abm.get 0 0 + mom.get 1 / mom.get 0)).set 0 1 (mom.get 0)))

/-- The inner-loop assignment of the recursion of the literature: `chebInner` with the
band term read from row `i-1`. -/
def chebInnerTextbook {K : Type} [Field K] (abm ab : Mat K) (i k : Nat) (sig : Mat K) :
    Mat K :=
  sig.set i k (sig.get (i - 1) (k + 1)
    - (ab.get (i - 2) 0 - abm.get k 0) * sig.get (i - 1) k
    - ab.get (i - 2) 1 * sig.get (i - 2) k
    + abm.get k 1 * sig.get (i - 1) (k - 1))

/-! ## The remaining methods and the object state -/

/-- The method `mmom(n)`. The quotient `1/(i+1)` has two `int` operands, so it is the
truncating integer division; its value is then converted to the scalar type. -/
def mmom {K : Type} [Field K] (n : Nat) : Vec K :=
  forLoop 0 n (fun i mom => mom.set i ((Int.tdiv 1 ((i : Int) + 1) : Int) : K)) (Vec.Zero n)

/-- The method `mmom_jaclog(n)`; the loop carries the vector and the `int` sign `sgn`. -/
def mmom_jaclog {K : Type} [Field K] (S : Scalar K) (n : Nat) : Vec K :=
  let mmom : Vec K := Vec.Zero (2 * n)
  let mmom := mmom.set 0
    (S.tgamma 1 * S.tgamma 1 * (S.digamma 2 - S.digamma 1) / S.tgamma 2)
  let sgn : Int := 1
  (forLoop 1 (2 * n) (fun i (st : Vec K × Int) =>
    let k : Int := (i : Int) + 1
    let sgn := st.2 * (-1)
    (st.1.set i ((sgn : K) * S.tgamma ((k - 1 : Int) : K) * S.tgamma (k : K) * S.tgamma 1
      / ((k : K) * S.tgamma ((k + 1 : Int) : K))), sgn)) (mmom, sgn)).1

/-- The method `log_nw(n)` called on an object: the returned table together with the data
members of the object after the call. The body declares the local vectors `nodes` and
`weights`, which hide the members of the same names, and assigns no data member. -/
def GaussLogRule.run_log_nw {K : Type} [LinearOrderedField K] (self : GaussLogRule K)
    (S : Scalar K) (solve : Mat K → EigenResult K) (n : Nat) :
    Option (Mat K × GaussLogRule K) :=
  match log_nw S solve n with
  | none => none
  | some nw => some (nw, self)

/-- The call `operator()(f)` on an object: the returned value together with the data
members of the object after the call. It reads `degree`, calls `log_nw(degree)` and
accumulates into the local `quad`. -/
def GaussLogRule.run_call {K : Type} [LinearOrderedField K] (self : GaussLogRule K)
    (S : Scalar K) (solve : Mat K → EigenResult K) (f : K → K) :
    Option (K × GaussLogRule K) :=
  match self.run_log_nw S solve self.degree with
  | none => none
  | some (nw, self1) =>
    some (forLoop 0 (nw.col 0).size (fun i quad => quad + nw.get i 1 * f (nw.get i 0 - 1)) 0,
      self1)

/-! ## Element accesses with index checks -/

/-- Read of `M(i, j)` with the index check of a debug build: `none` when an index is
negative or reaches the dimension. -/
def Mat.getC {K : Type} (M : Mat K) (i j : Int) : Option K :=
  if 0 ≤ i ∧ i < M.rows ∧ 0 ≤ j ∧ j < M.cols then some (M.get i.toNat j.toNat) else none

/-- Assignment `M(i, j) = v` with the index check. -/
def Mat.setC {K : Type} (M : Mat K) (i j : Int) (v : K) : Option (Mat K) :=
  if 0 ≤ i ∧ i < M.rows ∧ 0 ≤ j ∧ j < M.cols then some (M.set i.toNat j.toNat v) else none

/-- Read of `x[i]` with the index check. -/
def Vec.getC {K : Type} (x : Vec K) (i : Int) : Option K :=
  if 0 ≤ i ∧ i < x.size then some (x.get i.toNat) else none

/-- Assignment `M.row(i) = v` with the checks that row `i` exists and that `v` has as many
entries as `M` has columns (entries `0, ..., v.size-1` of `v` are read). -/
def Mat.setRowC {K : Type} (M : Mat K) (i : Int) (v : Vec K) : Option (Mat K) :=
  if 0 ≤ i ∧ i < M.rows ∧ v.size = M.cols then some (M.setRow i.toNat v) else none

/-- Runs the fallible `body` for `count` consecutive counter values, stopping at the first
failure. -/
def loopFromM {σ : Type} (body : Nat → σ → Option σ) : Nat → Nat → σ → Option σ
  | _, 0, s => some s
  | i, c + 1, s => (body i s).bind (loopFromM body (i + 1) c)

/-- The loop `for (int i = lo; i < hi; i++) body` with a fallible body. -/
def forLoopM {σ : Type} (lo hi : Nat) (body : Nat → σ → Option σ) (s : σ) : Option σ :=
  loopFromM body lo (hi - lo) s

/-- The inner-loop assignment of `chebyshev` with every element access checked. -/
def chebInnerC {K : Type} [Field K] (n : Nat) (abm ab : Mat K) (i k : Nat) (sig : Mat K) :
    Option (Mat K) := do
  let s1 ← sig.getC ((i : Int) - 1) ((k : Int) + 1)
  let a0 ← ab.getC ((i : Int) - 2) 0
  let r0 ← abm.getC (k : Int) 0
  let sn ← sig.getC ((n : Int) - 1) (k : Int)
  let a1 ← ab.getC ((i : Int) - 2) 1
  let s2 ← sig.getC ((i : Int) - 2) (k : Int)
  let r1 ← abm.getC (k : Int) 1
  let s3 ← sig.getC ((i : Int) - 1) ((k : Int) - 1)
  sig.setC (i : Int) (k : Int) (s1 - (a0 - r0) * sn - a1 * s2 + r1 * s3)

/-- One outer iteration of `chebyshev` with every element access checked. -/
def chebOuterC {K : Type} [Field K] (n : Nat) (abm : Mat K) (i : Nat) (st : Mat K × Mat K) :
    Option (Mat K × Mat K) := do
  let sig ← forLoopM (i - 1) (2 * n - i + 1) (chebInnerC n abm st.2 i) st.1
  let r0 ← abm.getC ((i : Int) - 1) 0
  let d1 ← sig.getC (i : Int) (i : Int)
  let d2 ← sig.getC (i : Int) ((i : Int) - 1)
  let d3 ← sig.getC ((i : Int) - 1) ((i : Int) - 1)
  let d4 ← sig.getC ((i : Int) - 1) ((i : Int) - 2)
  let ab ← st.2.setC ((i : Int) - 1) 0 (r0 + d1 / d2 - d3 / d4)
  let e1 ← sig.getC (i : Int) ((i : Int) - 1)
  let e2 ← sig.getC ((i : Int) - 1) ((i : Int) - 2)
  let ab ← ab.setC ((i : Int) - 1) 1 (e1 / e2)
  pure (sig, ab)

/-- The method `chebyshev(n, abm, mom)` with every element access checked against the
dimensions of the container it goes to; `none` as soon as one access is out of bounds. -/
def chebyshevChecked {K : Type} [Field K] (n : Nat) (abm : Mat K) (mom : Vec K) :
    Option (Mat K) := do
  let sig : Mat K := Mat.Zero (n + 1) (2 * n)
  let ab : Mat K := Mat.Zero n 2
  let r0 ← abm.getC 0 0
  let m1 ← mom.getC 1
  let m0 ← mom.getC 0
  let ab ← ab.setC 0 0 (r0 + m1 / m0)
  let m0 ← mom.getC 0
  let ab ← ab.setC 0 1 m0
  let sig ← sig.setRowC 1 mom
  let st ← forLoopM 2 (n + 1) (chebOuterC n abm) (sig, ab)
  pure st.2

/-- A moment vector of length 2 whose zeroth moment is `0`. -/
def zeroFirstMoment : Vec ℚ :=
  ⟨2, fun k => if k = 0 then 0 else 1⟩

/-- The moment vector `(1, 1, 1, 1)`: the moments of a unit point mass at `1`. -/
def onesMoments4 : Vec ℚ :=
  ⟨4, fun _ => 1⟩

/-! ## Loop rules -/

theorem loopFrom_succ_right {σ : Type} (body : Nat → σ → σ) (c : Nat) :
    ∀ (i : Nat) (s : σ), loopFrom body i (c + 1) s = body (i + c) (loopFrom body i c s) := by
  induction c with
  | zero => intro i s; rfl
  | succ c ih =>
    intro i s
    have h := ih (i + 1) (body i s)
    have e : i + 1 + c = i + (c + 1) := by omega
    rw [e] at h
    exact h

theorem forLoop_empty {σ : Type} (lo hi : Nat) (body : Nat → σ → σ) (s : σ) (h : hi ≤ lo) :
    forLoop lo hi body s = s := by
  unfold forLoop
  rw [Nat.sub_eq_zero_of_le h]
  rfl

theorem forLoop_succ {σ : Type} (lo hi : Nat) (body : Nat → σ → σ) (s : σ) (h : lo ≤ hi) :
    forLoop lo (hi + 1) body s = body hi (forLoop lo hi body s) := by
  unfold forLoop
  have e : hi + 1 - lo = (hi - lo) + 1 := by omega
  rw [e, loopFrom_succ_right]
  have e2 : lo + (hi - lo) = hi := by omega
  rw [e2]

/-- Invariant rule for `forLoop`. -/
theorem forLoop_invariant {σ : Type} (P : Nat → σ → Prop) (lo hi : Nat) (body : Nat → σ → σ)
    (s : σ) (hle : lo ≤ hi) (h0 : P lo s)
    (hstep : ∀ i t, lo ≤ i → i < hi → P i t → P (i + 1) (body i t)) :
    P hi (forLoop lo hi body s) := by
  induction hi with
  | zero =>
    have : lo = 0 := by omega
    subst this
    simpa [forLoop, loopFrom] using h0
  | succ m ih =>
    by_cases hm : lo ≤ m
    · rw [forLoop_succ lo m body s hm]
      exact hstep m _ hm (Nat.lt_succ_self m)
        (ih hm (fun i t h1 h2 hp => hstep i t h1 (Nat.lt_succ_of_lt h2) hp))
    · have : lo = m + 1 := by omega
      subst this
      rw [forLoop_empty _ _ _ _ (le_refl _)]
      exact h0

/-! ## The constructor -/

/-- C10: constructing `GaussLogRule(n)` fails exactly when `n ≤ 1`; for `n > 1` it
succeeds and the `degree` field of the new object is `n`. -/
theorem ctor_fails_iff (K : Type) (n : Nat) :
    ((GaussLogRule.ctor n : Option (GaussLogRule K)) = none ↔ n ≤ 1) ∧
    (1 < n → ∃ r : GaussLogRule K, GaussLogRule.ctor n = some r ∧ r.degree = n) := by
  unfold GaussLogRule.ctor
  constructor
  · by_cases h : n > 1
    · simp [h]
    · simp [h]; omega
  · intro h
    exact ⟨{ nodes := [], weights := [], degree := n }, by simp [h], rfl⟩

/-- Witness for C10 at `n = 2` (success) . -/
theorem ctor_fails_iff_witness :
    1 < 2 ∧ ∃ r : GaussLogRule ℚ, GaussLogRule.ctor 2 = some r ∧ r.degree = 2 :=
  ⟨by decide, (ctor_fails_iff ℚ 2).2 (by decide)⟩

/-! ## The Jacobi matrix builder -/

/-- State of the matrix under construction after the loop of `tridiagCoeffs` has handled
the rows `1, ..., m-1`. -/
theorem tridiag_loop {K : Type} [Field K] (S : Scalar K) (coeffs : Mat K) (n : Nat) :
    ∀ m : Nat, 1 ≤ m →
      (forLoop 1 m (fun i t =>
        let t := t.set i i (coeffs.get i 0)
        let t := t.set i (i - 1) (S.sqrt (coeffs.get i 1))
        t.set (i - 1) i (S.sqrt (coeffs.get i 1)))
        ((Mat.Zero n n : Mat K).set 0 0 (coeffs.get 0 0))).rows = n ∧
      (forLoop 1 m (fun i t =>
        let t := t.set i i (coeffs.get i 0)
        let t := t.set i (i - 1) (S.sqrt (coeffs.get i 1))
        t.set (i - 1) i (S.sqrt (coeffs.get i 1)))
        ((Mat.Zero n n : Mat K).set 0 0 (coeffs.get 0 0))).cols = n ∧
      ∀ a b : Nat,
        (forLoop 1 m (fun i t =>
          let t := t.set i i (coeffs.get i 0)
          let t := t.set i (i - 1) (S.sqrt (coeffs.get i 1))
          t.set (i - 1) i (S.sqrt (coeffs.get i 1)))
          ((Mat.Zero n n : Mat K).set 0 0 (coeffs.get 0 0))).get a b =
        if a = b then (if a < m then coeffs.get a 0 else 0)
        else if a = b + 1 ∧ a < m then S.sqrt (coeffs.get a 1)
        else if b = a + 1 ∧ b < m then S.sqrt (coeffs.get b 1)
        else 0 := by
  intro m hm
  induction m with
  | zero => omega
  | succ m ih =>
    by_cases h1 : 1 ≤ m
    · obtain ⟨hr, hc, hg⟩ := ih h1
      rw [forLoop_succ _ _ _ _ h1]
      generalize forLoop 1 m _ _ = T at hr hc hg
      refine ⟨hr, hc, ?_⟩
      intro a b
      have hT := hg a b
      simp only [Mat.set]
      by_cases e1 : a = m - 1 ∧ b = m
      · rw [if_pos e1, if_neg (by omega : ¬ a = b),
          if_neg (by omega : ¬ (a = b + 1 ∧ a < m + 1)),
          if_pos (by omega : b = a + 1 ∧ b < m + 1), e1.2]
      · by_cases e2 : a = m ∧ b = m - 1
        · rw [if_neg e1, if_pos e2, if_neg (by omega : ¬ a = b),
            if_pos (by omega : a = b + 1 ∧ a < m + 1), e2.1]
        · by_cases e3 : a = m ∧ b = m
          · rw [if_neg e1, if_neg e2, if_pos e3, if_pos (by omega : a = b),
              if_pos (by omega : a < m + 1), e3.1]
          · rw [if_neg e1, if_neg e2, if_neg e3, hT]
            by_cases hab : a = b
            · have q0 : (a < m + 1) ↔ (a < m) := by constructor <;> intro h <;> omega
              simp only [if_pos hab, q0]
            · have q1 : (a = b + 1 ∧ a < m + 1) ↔ (a = b + 1 ∧ a < m) := by
                constructor <;> intro h <;> omega
              have q2 : (b = a + 1 ∧ b < m + 1) ↔ (b = a + 1 ∧ b < m) := by
                constructor <;> intro h <;> omega
              simp only [if_neg hab, q1, q2]
    · have : m = 0 := by omega
      subst this
      rw [forLoop_empty _ _ _ _ (le_refl _)]
      refine ⟨rfl, rfl, ?_⟩
      intro a b
      simp only [Mat.set, Mat.Zero]
      by_cases e : a = 0 ∧ b = 0
      · rw [if_pos e, if_pos (by omega : a = b), if_pos (by omega : a < 0 + 1), e.1]
      · rw [if_neg e]
        by_cases hab : a = b
        · rw [if_pos hab, if_neg (by omega : ¬ a < 0 + 1)]
        · rw [if_neg hab, if_neg (by omega : ¬ (a = b + 1 ∧ a < 0 + 1)),
            if_neg (by omega : ¬ (b = a + 1 ∧ b < 0 + 1))]

/-- With the two size assertions satisfied, `tridiagCoeffs` returns the matrix described
entry by entry below, whatever the table holds. -/
theorem tridiagCoeffs_entries {K : Type} [Field K] (S : Scalar K) (coeffs : Mat K) (n : Nat)
    (hn : 1 ≤ n) (hr : coeffs.rows = n) (hc : coeffs.cols = 2) :
    ∃ J : Mat K, tridiagCoeffs S coeffs n = some J ∧ J.rows = n ∧ J.cols = n ∧
      ∀ a b : Nat, J.get a b =
        if a = b then (if a < n then coeffs.get a 0 else 0)
        else if a = b + 1 ∧ a < n then S.sqrt (coeffs.get a 1)
        else if b = a + 1 ∧ b < n then S.sqrt (coeffs.get b 1)
        else 0 := by
  obtain ⟨h1, h2, h3⟩ := tridiag_loop S coeffs n n hn
  refine ⟨_, ?_, h1, h2, h3⟩
  unfold tridiagCoeffs
  rw [if_neg (by simp [hr]), if_neg (by simp [hc])]

theorem ratScalar_sqrt_four : ratScalar.sqrt 4 = 2 := by
  have h4 : Nat.sqrt 4 = 2 := by norm_num [Nat.sqrt, Nat.sqrt.iter]
  have hn : (4 : ℚ).num.toNat = 4 := by simp
  have hd : (4 : ℚ).den = 1 := by simp
  show ((Nat.sqrt (4 : ℚ).num.toNat : ℚ) / (Nat.sqrt (4 : ℚ).den : ℚ)) = 2
  rw [hn, hd, h4, Nat.sqrt_one]
  norm_num

/-- C5: for an `n×2` table with `βᵢ ≥ 0` (`i ≥ 1`), `tridiagCoeffs` returns the `n×n`
matrix with diagonal `αᵢ`, entries `√βᵢ` at `(i,i-1)` and `(i-1,i)` for `1 ≤ i < n`, and
zero elsewhere; the matrix is symmetric and does not depend on `β₀`; on the table
`[(2, ·), (3, 4)]` the result is `[[2,2],[2,3]]` (for a `sqrt` with `sqrt 4 = 2`). -/
theorem tridiagCoeffs_spec {K : Type} [LinearOrderedField K] (S : Scalar K) (coeffs : Mat K)
    (n : Nat) (hn : 1 ≤ n) (hr : coeffs.rows = n) (hc : coeffs.cols = 2)
    (_hβ : ∀ i : Nat, 1 ≤ i → i < n → 0 ≤ coeffs.get i 1) :
    (∃ J : Mat K, tridiagCoeffs S coeffs n = some J ∧ J.rows = n ∧ J.cols = n ∧
      (∀ i : Nat, i < n → J.get i i = coeffs.get i 0) ∧
      (∀ i : Nat, 1 ≤ i → i < n →
        J.get i (i - 1) = S.sqrt (coeffs.get i 1) ∧ J.get (i - 1) i = S.sqrt (coeffs.get i 1)) ∧
      (∀ i j : Nat, i < n → j < n → i ≠ j → i ≠ j + 1 → j ≠ i + 1 → J.get i j = 0) ∧
      (∀ i j : Nat, J.get i j = J.get j i) ∧
      (∀ v : K, ∃ J2 : Mat K, tridiagCoeffs S (coeffs.set 0 1 v) n = some J2 ∧
        J2.rows = n ∧ J2.cols = n ∧ ∀ i j : Nat, J2.get i j = J.get i j)) ∧
    (S.sqrt 4 = 2 → ∀ b0 : K, ∃ E : Mat K, tridiagCoeffs S (sampleTable b0) 2 = some E ∧
      E.rows = 2 ∧ E.cols = 2 ∧
      E.get 0 0 = 2 ∧ E.get 0 1 = 2 ∧ E.get 1 0 = 2 ∧ E.get 1 1 = 3) := by
  constructor
  · obtain ⟨J, hJ, hrows, hcols, hget⟩ := tridiagCoeffs_entries S coeffs n hn hr hc
    refine ⟨J, hJ, hrows, hcols, ?_, ?_, ?_, ?_, ?_⟩
    · intro i hi
      rw [hget, if_pos rfl, if_pos hi]
    · intro i h1 hi
      constructor
      · rw [hget, if_neg (by omega), if_pos (by omega)]
      · rw [hget, if_neg (by omega), if_neg (by omega), if_pos (by omega)]
    · intro i j _ _ h1 h2 h3
      rw [hget, if_neg h1, if_neg (by omega), if_neg (by omega)]
    · intro i j
      rw [hget i j, hget j i]
      by_cases hij : i = j
      · subst hij; rfl
      · have hji : ¬ j = i := fun h => hij h.symm
        by_cases h1 : i = j + 1 ∧ i < n
        · have h2 : ¬ (j = i + 1 ∧ j < n) := by omega
          simp only [if_neg hij, if_neg hji, if_pos h1, if_neg h2]
        · by_cases h2 : j = i + 1 ∧ j < n
          · simp only [if_neg hij, if_neg hji, if_neg h1, if_pos h2]
          · simp only [if_neg hij, if_neg hji, if_neg h1, if_neg h2]
    · intro v
      obtain ⟨J2, hJ2, hrows2, hcols2, hget2⟩ :=
        tridiagCoeffs_entries S (coeffs.set 0 1 v) n hn hr hc
      refine ⟨J2, hJ2, hrows2, hcols2, ?_⟩
      intro i j
      rw [hget2 i j, hget i j]
      have e0 : ∀ a : Nat, (coeffs.set 0 1 v).get a 0 = coeffs.get a 0 := by
        intro a; simp [Mat.set]
      have e1 : ∀ a : Nat, 1 ≤ a → (coeffs.set 0 1 v).get a 1 = coeffs.get a 1 := by
        intro a ha
        have : ¬ a = 0 := by omega
        simp [Mat.set, this]
      rw [e0]
      by_cases hij : i = j
      · simp only [if_pos hij]
      · by_cases h1 : i = j + 1 ∧ i < n
        · simp only [if_neg hij, if_pos h1, e1 i (by omega)]
        · by_cases h2 : j = i + 1 ∧ j < n
          · simp only [if_neg hij, if_neg h1, if_pos h2, e1 j (by omega)]
          · simp only [if_neg hij, if_neg h1, if_neg h2]
  · intro h4 b0
    obtain ⟨E, hE, hrows, hcols, hget⟩ :=
      tridiagCoeffs_entries S (sampleTable b0) 2 (by decide) rfl rfl
    refine ⟨E, hE, hrows, hcols, ?_, ?_, ?_, ?_⟩
    · rw [hget]; simp [sampleTable, Mat.set, Mat.Zero]
    · rw [hget]; simp [sampleTable, Mat.set, Mat.Zero, h4]
    · rw [hget]; simp [sampleTable, Mat.set, Mat.Zero, h4]
    · rw [hget]; simp [sampleTable, Mat.set, Mat.Zero]

/-- Witness for C5: the table `[(2, 7), (3, 4)]` over the rationals. -/
theorem tridiagCoeffs_spec_witness :
    (1 ≤ 2 ∧ (sampleTable (7 : ℚ)).rows = 2 ∧ (sampleTable (7 : ℚ)).cols = 2 ∧
      (∀ i : Nat, 1 ≤ i → i < 2 → 0 ≤ (sampleTable (7 : ℚ)).get i 1) ∧
      ratScalar.sqrt 4 = 2) ∧
    ∃ E : Mat ℚ, tridiagCoeffs ratScalar (sampleTable 7) 2 = some E ∧
      E.rows = 2 ∧ E.cols = 2 ∧
      E.get 0 0 = 2 ∧ E.get 0 1 = 2 ∧ E.get 1 0 = 2 ∧ E.get 1 1 = 3 := by
  have hβ : ∀ i : Nat, 1 ≤ i → i < 2 → 0 ≤ (sampleTable (7 : ℚ)).get i 1 := by
    intro i h1 h2
    have : i = 1 := by omega
    subst this
    simp [sampleTable, Mat.set, Mat.Zero]
  exact ⟨⟨by decide, rfl, rfl, hβ, ratScalar_sqrt_four⟩,
    (tridiagCoeffs_spec ratScalar (sampleTable 7) 2 (by decide) rfl rfl hβ).2
      ratScalar_sqrt_four 7⟩

/-- C9 (as stated, refuted): on the two-row table `[(2, 1), (3, -1)]`, whose `β₁` is
negative, `tridiagCoeffs` reports no error; it returns a matrix whose off-diagonal
entries are whatever `sqrt(-1)` evaluates to. -/
theorem tridiagCoeffs_negBeta_no_error :
    2 ≤ 2 ∧ negBetaTable.rows = 2 ∧ negBetaTable.cols = 2 ∧
    (∃ i : Nat, 1 ≤ i ∧ i < 2 ∧ negBetaTable.get i 1 < 0) ∧
    (tridiagCoeffs ratScalar negBetaTable 2).isSome = true ∧
    ∀ S : Scalar ℚ, ∃ J : Mat ℚ, tridiagCoeffs S negBetaTable 2 = some J ∧
      J.get 1 0 = S.sqrt (-1) ∧ J.get 0 1 = S.sqrt (-1) := by
  refine ⟨le_refl _, rfl, rfl, ⟨1, le_refl _, by decide, ?_⟩, ?_, ?_⟩
  · simp [negBetaTable, Mat.set, Mat.Zero]
  · obtain ⟨J, hJ, _⟩ := tridiagCoeffs_entries ratScalar negBetaTable 2 (by decide) rfl rfl
    rw [hJ]; rfl
  · intro S
    obtain ⟨J, hJ, _, _, hget⟩ := tridiagCoeffs_entries S negBetaTable 2 (by decide) rfl rfl
    refine ⟨J, hJ, ?_, ?_⟩
    · rw [hget]; simp [negBetaTable, Mat.set, Mat.Zero]
    · rw [hget]; simp [negBetaTable, Mat.set, Mat.Zero]

/-- C9 (amended): `tridiagCoeffs` never inspects the sign of a `βᵢ`. For every `n ≥ 2`
and every table with `n` rows and 2 columns, negative `βᵢ` included, it returns an
`n×n` matrix whose entries `(i,i-1)` and `(i-1,i)` are the library `sqrt` applied to `βᵢ`. -/
theorem tridiagCoeffs_no_sign_check {K : Type} [Field K] (S : Scalar K) (coeffs : Mat K)
    (n : Nat) (hn : 2 ≤ n) (hr : coeffs.rows = n) (hc : coeffs.cols = 2) :
    ∃ J : Mat K, tridiagCoeffs S coeffs n = some J ∧ J.rows = n ∧ J.cols = n ∧
      ∀ i : Nat, 1 ≤ i → i < n →
        J.get i (i - 1) = S.sqrt (coeffs.get i 1) ∧ J.get (i - 1) i = S.sqrt (coeffs.get i 1) := by
  obtain ⟨J, hJ, hrows, hcols, hget⟩ := tridiagCoeffs_entries S coeffs n (by omega) hr hc
  refine ⟨J, hJ, hrows, hcols, ?_⟩
  intro i h1 hi
  constructor
  · rw [hget, if_neg (by omega), if_pos (by omega)]
  · rw [hget, if_neg (by omega), if_neg (by omega), if_pos (by omega)]

/-- Witness for the amended C9 on the table `[(2, 1), (3, -1)]`. -/
theorem tridiagCoeffs_no_sign_check_witness :
    (2 ≤ 2 ∧ negBetaTable.rows = 2 ∧ negBetaTable.cols = 2) ∧
    ∃ J : Mat ℚ, tridiagCoeffs ratScalar negBetaTable 2 = some J ∧ J.rows = 2 ∧ J.cols = 2 ∧
      ∀ i : Nat, 1 ≤ i → i < 2 →
        J.get i (i - 1) = ratScalar.sqrt (negBetaTable.get i 1) ∧
        J.get (i - 1) i = ratScalar.sqrt (negBetaTable.get i 1) :=
  ⟨⟨le_refl _, rfl, rfl⟩, tridiagCoeffs_no_sign_check ratScalar negBetaTable 2 (le_refl _) rfl rfl⟩

/-! ## Loops that fill one column or one vector -/

/-- A loop whose body stores `g i` at `(i, j)` leaves a matrix that holds `g i` in the
rows `lo ≤ i < hi` of column `j` and is unchanged elsewhere. -/
theorem forLoop_set_col {K : Type} (j lo : Nat) (g : Nat → K) (c0 : Mat K) :
    ∀ hi : Nat, lo ≤ hi →
      (forLoop lo hi (fun i c => c.set i j (g i)) c0).rows = c0.rows ∧
      (forLoop lo hi (fun i c => c.set i j (g i)) c0).cols = c0.cols ∧
      ∀ a b : Nat, (forLoop lo hi (fun i c => c.set i j (g i)) c0).get a b =
        if b = j ∧ lo ≤ a ∧ a < hi then g a else c0.get a b := by
  intro hi hle
  refine forLoop_invariant
    (fun m c => c.rows = c0.rows ∧ c.cols = c0.cols ∧
      ∀ a b : Nat, c.get a b = if b = j ∧ lo ≤ a ∧ a < m then g a else c0.get a b)
    lo hi _ c0 hle ⟨rfl, rfl, ?_⟩ ?_
  · intro a b
    rw [if_neg (by omega)]
  · intro i t h1 _ ⟨hr, hc, hg⟩
    refine ⟨hr, hc, ?_⟩
    intro a b
    simp only [Mat.set]
    by_cases e : a = i ∧ b = j
    · rw [if_pos e, if_pos (by omega), e.1]
    · rw [if_neg e, hg a b]
      by_cases q : b = j ∧ lo ≤ a ∧ a < i
      · rw [if_pos q, if_pos (by omega)]
      · rw [if_neg q, if_neg (by omega)]

/-- A loop whose body stores `g i` at index `i` leaves a vector that holds `g i` at the
indices `lo ≤ i < hi` and is unchanged elsewhere. -/
theorem forLoop_set_vec {K : Type} (lo : Nat) (g : Nat → K) (x0 : Vec K) :
    ∀ hi : Nat, lo ≤ hi →
      (forLoop lo hi (fun i x => x.set i (g i)) x0).size = x0.size ∧
      ∀ a : Nat, (forLoop lo hi (fun i x => x.set i (g i)) x0).get a =
        if lo ≤ a ∧ a < hi then g a else x0.get a := by
  intro hi hle
  refine forLoop_invariant
    (fun m x => x.size = x0.size ∧
      ∀ a : Nat, x.get a = if lo ≤ a ∧ a < m then g a else x0.get a)
    lo hi _ x0 hle ⟨rfl, ?_⟩ ?_
  · intro a
    rw [if_neg (by omega)]
  · intro i t h1 _ ⟨hs, hg⟩
    refine ⟨hs, ?_⟩
    intro a
    simp only [Vec.set]
    by_cases e : a = i
    · rw [if_pos e, if_pos (by omega), e]
    · rw [if_neg e, hg a]
      by_cases q : lo ≤ a ∧ a < i
      · rw [if_pos q, if_pos (by omega)]
      · rw [if_neg q, if_neg (by omega)]

/-! ## Moments -/

/-- Size and entries of `mom_jaclog(n)`, as the source computes them. -/
theorem mom_jaclog_get {K : Type} [Field K] (S : Scalar K) (n : Nat) :
    (mom_jaclog S n).size = 2 * n ∧
    ∀ k : Nat, (mom_jaclog S n).get k =
      if k < 2 * n then
        S.tgamma 1 * S.tgamma ((k : K) + 1) * (S.digamma ((k : K) + 1 + 1) - S.digamma ((k : K) + 1))
          / S.tgamma ((k : K) + 1 + 1)
      else 0 := by
  obtain ⟨hs, hg⟩ := forLoop_set_vec 0
    (fun i : Nat => S.tgamma 1 * S.tgamma (((i + 1 : Nat) : K))
      * (S.digamma ((((i + 1 : Nat)) : K) + 1) - S.digamma (((i + 1 : Nat) : K)))
      / S.tgamma ((((i + 1 : Nat)) : K) + 1)) (Vec.Zero (2 * n)) (2 * n) (Nat.zero_le _)
  refine ⟨hs, ?_⟩
  intro k
  have := hg k
  unfold mom_jaclog
  rw [this]
  by_cases h : k < 2 * n
  · rw [if_pos ⟨Nat.zero_le _, h⟩, if_pos h]
    push_cast
    rfl
  · rw [if_neg (by omega), if_neg h]
    rfl

/-- With exact special functions, entry `k` of `mom_jaclog(n)` is `1/(k+1)²`. -/
theorem mom_jaclog_closed {K : Type} [LinearOrderedField K] (S : Scalar K)
    (hG : GammaExact S) (hD : DigammaExact S) (n k : Nat) (hk : k < 2 * n) :
    (mom_jaclog S n).get k = 1 / ((k : K) + 1) ^ 2 := by
  rw [(mom_jaclog_get S n).2 k, if_pos hk]
  have g1 : S.tgamma 1 = 1 := by
    have := hG 0
    simpa using this
  have g2 : S.tgamma ((k : K) + 1) = (k.factorial : K) := hG k
  have g3 : S.tgamma ((k : K) + 1 + 1) = ((k + 1).factorial : K) := by
    have := hG (k + 1)
    push_cast at this ⊢
    exact this
  rw [g1, g2, g3, hD k, Nat.factorial_succ]
  have hk0 : ((k : K) + 1) ≠ 0 := by positivity
  have hf : (k.factorial : K) ≠ 0 := by exact_mod_cast Nat.factorial_ne_zero k
  push_cast
  field_simp
  ring

theorem ratScalar_gammaExact : GammaExact ratScalar := by
  intro m
  show ((((m : ℚ) + 1).num.toNat - 1).factorial : ℚ) = (m.factorial : ℚ)
  have : ((m : ℚ) + 1).num = ((m + 1 : Nat) : ℤ) := by
    have : (m : ℚ) + 1 = ((m + 1 : Nat) : ℚ) := by push_cast; ring
    rw [this, Rat.num_natCast]
  rw [this]
  simp

theorem ratScalar_digammaExact : DigammaExact ratScalar := by
  intro m
  show harmonic (((m : ℚ) + 1 + 1).num.toNat - 1) - harmonic (((m : ℚ) + 1).num.toNat - 1)
    = 1 / ((m : ℚ) + 1)
  have h1 : ((m : ℚ) + 1).num = ((m + 1 : Nat) : ℤ) := by
    have : (m : ℚ) + 1 = ((m + 1 : Nat) : ℚ) := by push_cast; ring
    rw [this, Rat.num_natCast]
  have h2 : ((m : ℚ) + 1 + 1).num = ((m + 2 : Nat) : ℤ) := by
    have : (m : ℚ) + 1 + 1 = ((m + 2 : Nat) : ℚ) := by push_cast; ring
    rw [this, Rat.num_natCast]
  rw [h1, h2]
  simp only [Int.toNat_ofNat]
  have e1 : m + 2 - 1 = m + 1 := by omega
  have e2 : m + 1 - 1 = m := by omega
  rw [e1, e2, harmonic_succ]
  push_cast
  ring

/-- C4 (as stated, refuted): with exact special functions, entry 0 of `mom_jaclog(1)` is
`1`, not the moment `-1/(0+1)² = -1` of `log(x)`. -/
theorem mom_jaclog_entry_zero_positive :
    GammaExact ratScalar ∧ DigammaExact ratScalar ∧
    (mom_jaclog ratScalar 1).get 0 = 1 ∧
    (mom_jaclog ratScalar 1).get 0 ≠ -1 / (((0 : Nat) : ℚ) + 1) ^ 2 := by
  have h := mom_jaclog_closed ratScalar ratScalar_gammaExact ratScalar_digammaExact 1 0
    (by decide)
  have h1 : (mom_jaclog ratScalar 1).get 0 = 1 := by rw [h]; norm_num
  refine ⟨ratScalar_gammaExact, ratScalar_digammaExact, h1, ?_⟩
  rw [h1]; norm_num

/-- C4 (amended): for every `n ≥ 1`, `mom_jaclog(n)` has length `2n` and its entry `k`,
computed as `Γ(1)Γ(k+1)(ψ(k+2)−ψ(k+1))/Γ(k+2)`, equals `+1/(k+1)²` for every `k < 2n`
when `Γ` and `ψ` are exact: the moment of `−log(x)`, the negative of `−1/(k+1)²`. -/
theorem mom_jaclog_spec {K : Type} [LinearOrderedField K] (S : Scalar K)
    (hG : GammaExact S) (hD : DigammaExact S) (n : Nat) (_hn : 1 ≤ n) :
    (mom_jaclog S n).size = 2 * n ∧
    ∀ k : Nat, k < 2 * n →
      (mom_jaclog S n).get k =
        S.tgamma 1 * S.tgamma ((k : K) + 1) * (S.digamma ((k : K) + 1 + 1) - S.digamma ((k : K) + 1))
          / S.tgamma ((k : K) + 1 + 1) ∧
      (mom_jaclog S n).get k = 1 / ((k : K) + 1) ^ 2 ∧
      (mom_jaclog S n).get k = -(-1 / ((k : K) + 1) ^ 2) := by
  refine ⟨(mom_jaclog_get S n).1, ?_⟩
  intro k hk
  refine ⟨?_, mom_jaclog_closed S hG hD n k hk, ?_⟩
  · rw [(mom_jaclog_get S n).2 k, if_pos hk]
  · rw [mom_jaclog_closed S hG hD n k hk]; ring

/-- Witness for the amended C4: `mom_jaclog(1)` over the rationals. -/
theorem mom_jaclog_spec_witness :
    (GammaExact ratScalar ∧ DigammaExact ratScalar ∧ 1 ≤ 1) ∧
    (mom_jaclog ratScalar 1).size = 2 * 1 ∧
    (mom_jaclog ratScalar 1).get 1 = 1 / (((1 : Nat) : ℚ) + 1) ^ 2 :=
  ⟨⟨ratScalar_gammaExact, ratScalar_digammaExact, le_refl _⟩,
    (mom_jaclog_spec ratScalar ratScalar_gammaExact ratScalar_digammaExact 1 (le_refl _)).1,
    ((mom_jaclog_spec ratScalar ratScalar_gammaExact ratScalar_digammaExact 1 (le_refl _)).2 1
      (by decide)).2.1⟩

/-! ## Jacobi recurrence coefficients -/

theorem Mat.get_set {K : Type} (M : Mat K) (i j : Nat) (v : K) (a b : Nat) :
    (M.set i j v).get a b = if a = i ∧ b = j then v else M.get a b := rfl

theorem Mat.rows_set {K : Type} (M : Mat K) (i j : Nat) (v : K) :
    (M.set i j v).rows = M.rows := rfl

theorem Mat.cols_set {K : Type} (M : Mat K) (i j : Nat) (v : K) :
    (M.set i j v).cols = M.cols := rfl

/-- The vector `LinSpaced(size, 1, size)` holds `1, 2, ..., size`. -/
theorem LinSpaced_one_get {K : Type} [LinearOrderedField K] (size j : Nat) (hj : j < size) :
    (LinSpaced size (1 : K) ((size : Nat) : K)).get j = (j : K) + 1 := by
  unfold LinSpaced
  by_cases h1 : size = 1
  · subst h1
    have : j = 0 := by omega
    subst this
    simp
  · simp only [if_neg h1]
    by_cases hl : j = size - 1
    · rw [if_pos hl, hl]
      have : ((size - 1 : Nat) : K) = (size : K) - 1 := by
        rw [Nat.cast_sub (by omega)]; simp
      rw [this]; ring
    · rw [if_neg hl]
      have hs : ((size - 1 : Nat) : K) = (size : K) - 1 := by
        rw [Nat.cast_sub (by omega)]; simp
      have hne : (size : K) - 1 ≠ 0 := by
        have : (2 : K) ≤ (size : K) := by exact_mod_cast (by omega : 2 ≤ size)
        linarith
      rw [hs, div_self hne]
      ring

/-- Entries of `c_jacobi(n, a, b)` for `n ≥ 2`, as the two loops leave them. -/
theorem c_jacobi_get {K : Type} [LinearOrderedField K] (S : Scalar K) (n : Nat) (a b : K)
    (hn : 2 ≤ n) :
    (c_jacobi S n a b).rows = n ∧ (c_jacobi S n a b).cols = 2 ∧
    (∀ i : Nat, 1 ≤ i → i < n → (c_jacobi S n a b).get i 0 =
      (b ^ 2 - a ^ 2) / ((2 * (i : K) + (a + b)) * (2 * (i : K) + (a + b) + 2))) ∧
    (c_jacobi S n a b).get 0 0 = (b - a) / (a + b + 2) ∧
    (c_jacobi S n a b).get 0 1 =
      S.pow 2 (a + b + 1) * ((S.tgamma (a + 1) * S.tgamma (b + 1)) / S.tgamma (a + b + 2)) ∧
    (c_jacobi S n a b).get 1 1 = 4 * (a + 1) * (b + 1) / ((a + b + 2) ^ 2 * (a + b + 3)) ∧
    (∀ i : Nat, 2 ≤ i → i < n → (c_jacobi S n a b).get i 1 =
      (4 * ((i : K) * ((i : K) + b) * ((i : K) + a) * ((i : K) + a + b)))
        / ((2 * (i : K) + (a + b)) ^ 2 * (2 * (i : K) + (a + b) - 1)
          * (2 * (i : K) + (a + b) + 1))) := by
  have hn1 : ¬ n = 1 := by omega
  have hdeg : ∀ i : Nat, 1 ≤ i → i < n →
      2 * (LinSpaced (n - 1) (1 : K) ((n - 1 : Nat) : K)).get (i - 1) + 1 * (a + b)
        = 2 * (i : K) + (a + b) := by
    intro i h1 hi
    rw [LinSpaced_one_get (n - 1) (i - 1) (by omega)]
    have : ((i - 1 : Nat) : K) = (i : K) - 1 := by
      rw [Nat.cast_sub h1]; simp
    rw [this]; ring
  unfold c_jacobi
  simp only [if_neg hn1]
  generalize hA : (fun (i : Nat) (c : Mat K) => c.set i 0 _) = bodyA
  generalize hB : (fun (i : Nat) (c : Mat K) => c.set i 1 _) = bodyB
  subst hA hB
  obtain ⟨rB, cB, gB⟩ := forLoop_set_col 1 2 _ (((forLoop 1 n _
    ((Mat.Zero n 2 : Mat K).set 0 0 ((b - a) / (a + b + 2)))).set 0 1
      (S.pow 2 (a + b + 1) * ((S.tgamma (a + 1) * S.tgamma (b + 1)) / S.tgamma (a + b + 2)))).set
        1 1 (4 * (a + 1) * (b + 1) / ((a + b + 2) ^ 2 * (a + b + 3)))) n hn
  obtain ⟨rA, cA, gA⟩ := forLoop_set_col 0 1
    (fun i : Nat => (b ^ 2 - a ^ 2) /
      ((2 * (LinSpaced (n - 1) (1 : K) ((n - 1 : Nat) : K)).get (i - 1) + 1 * (a + b)) *
        (2 * (LinSpaced (n - 1) (1 : K) ((n - 1 : Nat) : K)).get (i - 1) + 1 * (a + b) + 2)))
    ((Mat.Zero n 2 : Mat K).set 0 0 ((b - a) / (a + b + 2))) n (by omega)
  refine ⟨?_, ?_, ?_, ?_, ?_, ?_, ?_⟩
  · rw [rB, Mat.rows_set, Mat.rows_set, rA]; rfl
  · rw [cB, Mat.cols_set, Mat.cols_set, cA]; rfl
  · intro i h1 hi
    rw [gB, if_neg (by omega), Mat.get_set, if_neg (by omega), Mat.get_set,
      if_neg (by omega), gA, if_pos ⟨rfl, h1, hi⟩, hdeg i h1 hi]
  · rw [gB, if_neg (by omega), Mat.get_set, if_neg (by omega), Mat.get_set,
      if_neg (by omega), gA, if_neg (by omega), Mat.get_set, if_pos ⟨rfl, rfl⟩]
  · rw [gB, if_neg (by omega), Mat.get_set, if_neg (by omega), Mat.get_set,
      if_pos ⟨rfl, rfl⟩]
  · rw [gB, if_neg (by omega), Mat.get_set, if_pos ⟨rfl, rfl⟩]
  · intro i h2 hi
    rw [gB, if_pos ⟨rfl, h2, hi⟩, hdeg i (by omega) hi]

/-- C6: for every `n ≥ 1` the table `c_jacobi(n, 0, 0)` has `αᵢ = 0` for `0 ≤ i < n` and
`βᵢ = i²/(4i²−1)` for `1 ≤ i < n`, the Legendre recurrence. -/
theorem c_jacobi_legendre {K : Type} [LinearOrderedField K] (S : Scalar K) (n : Nat)
    (hn : 1 ≤ n) :
    (∀ i : Nat, i < n → (c_jacobi S n 0 0).get i 0 = 0) ∧
    (∀ i : Nat, 1 ≤ i → i < n →
      (c_jacobi S n 0 0).get i 1 = (i : K) ^ 2 / (4 * (i : K) ^ 2 - 1)) := by
  by_cases h1 : n = 1
  · subst h1
    constructor
    · intro i hi
      have : i = 0 := by omega
      subst this
      simp [c_jacobi, Mat.set, Mat.Zero]
    · intro i h1 hi
      omega
  · have h2 : 2 ≤ n := by omega
    obtain ⟨_, _, hα, hα0, _, hβ1, hβ⟩ := c_jacobi_get S n (0 : K) 0 h2
    constructor
    · intro i hi
      by_cases h0 : i = 0
      · subst h0
        rw [hα0]; simp
      · rw [hα i (by omega) hi]; simp
    · intro i hi1 hi
      by_cases e1 : i = 1
      · subst e1
        rw [hβ1]; norm_num
      · rw [hβ i (by omega) hi]
        have hi0 : (0 : K) < (i : K) := by exact_mod_cast (by omega : 0 < i)
        have hi2 : (2 : K) ≤ (i : K) := by exact_mod_cast (by omega : 2 ≤ i)
        have hd : 4 * (i : K) ^ 2 - 1 ≠ 0 := by nlinarith
        have hd1 : 2 * (i : K) + (0 + 0) - 1 ≠ 0 := by nlinarith
        have hd2 : 2 * (i : K) + (0 + 0) + 1 ≠ 0 := by nlinarith
        have hd3 : 2 * (i : K) + (0 + 0) ≠ 0 := by nlinarith
        rw [div_eq_div_iff (by positivity) hd]
        ring

/-- Witness for C6: the table `c_jacobi(3, 0, 0)` over the rationals. -/
theorem c_jacobi_legendre_witness :
    1 ≤ 3 ∧
    (∀ i : Nat, i < 3 → (c_jacobi ratScalar 3 0 0).get i 0 = 0) ∧
    (∀ i : Nat, 1 ≤ i → i < 3 →
      (c_jacobi ratScalar 3 0 0).get i 1 = (i : ℚ) ^ 2 / (4 * (i : ℚ) ^ 2 - 1)) :=
  ⟨by decide, c_jacobi_legendre ratScalar 3 (by decide)⟩

/-! ## The node/weight table -/

theorem Mat.get_setCol {K : Type} (M : Mat K) (j : Nat) (v : Vec K) (a b : Nat) :
    (M.setCol j v).get a b = if b = j ∧ a < M.rows then v.get a else M.get a b := rfl

theorem Mat.get_setRow {K : Type} (M : Mat K) (i : Nat) (v : Vec K) (a b : Nat) :
    (M.setRow i v).get a b = if a = i ∧ b < M.cols then v.get b else M.get a b := rfl

/-- An accumulation loop computes the finite sum of its summands. -/
theorem forLoop_sum {K : Type} [Field K] (f : Nat → K) (m : Nat) :
    forLoop 0 m (fun i acc => acc + f i) (0 : K) = Finset.sum (Finset.range m) f := by
  induction m with
  | zero => rfl
  | succ m ih => rw [forLoop_succ _ _ _ _ (Nat.zero_le m), ih, Finset.sum_range_succ]

/-- The table returned by `chebyshev` has `n` rows and 2 columns. -/
theorem chebyshev_dims {K : Type} [Field K] (n : Nat) (abm : Mat K) (mom : Vec K) :
    (chebyshev n abm mom).rows = n ∧ (chebyshev n abm mom).cols = 2 := by
  unfold chebyshev
  by_cases hn : 1 ≤ n
  · exact forLoop_invariant (fun _ (st : Mat K × Mat K) => st.2.rows = n ∧ st.2.cols = 2)
      2 (n + 1) _ _ (by omega) ⟨rfl, rfl⟩ (fun i t _ _ h => h)
  · simp only []
    rw [forLoop_empty 2 (n + 1) _ _ (by omega)]
    exact ⟨rfl, rfl⟩

/-- Shape and entries of the table `log_nw(n)` in terms of the eigen-solver answer. -/
theorem log_nw_get {K : Type} [LinearOrderedField K] (S : Scalar K)
    (solve : Mat K → EigenResult K) (n : Nat) (J : Mat K)
    (hJ : tridiagCoeffs S (chebyshev_mom n (mom_jaclog S n)) n = some J) :
    ∃ nw : Mat K, log_nw S solve n = some nw ∧ nw.rows = n ∧ nw.cols = 2 ∧
      (∀ i : Nat, i < n → nw.get i 0 = (solve J).eigenvalues.get i) ∧
      (∀ i : Nat, i < n → nw.get i 1 =
        1 * ((normalized S ((solve J).eigenvectors.col i)).get 0) ^ 2) := by
  unfold log_nw
  simp only [hJ]
  refine ⟨_, rfl, rfl, rfl, ?_, ?_⟩
  · intro i hi
    rw [Mat.get_setCol, if_neg (by omega), Mat.get_setCol, if_pos ⟨rfl, hi⟩]
  · intro i hi
    rw [Mat.get_setCol, if_pos ⟨rfl, hi⟩]
    have := (forLoop_set_vec 0
      (fun i : Nat => 1 * ((normalized S ((solve J).eigenvectors.col i)).get 0) ^ 2)
      (Vec.Zero n) n (Nat.zero_le _)).2 i
    rw [this, if_pos ⟨Nat.zero_le _, hi⟩]

/-- The Jacobi matrix of `log_nw(n)` always exists: the size assertions of
`tridiagCoeffs` hold for the table `chebyshev` returns. -/
theorem log_nw_jacobi_exists {K : Type} [Field K] (S : Scalar K) (n : Nat) (hn : 1 ≤ n) :
    ∃ J : Mat K, tridiagCoeffs S (chebyshev_mom n (mom_jaclog S n)) n = some J ∧
      J.rows = n ∧ J.cols = n ∧
      ∀ a b : Nat, J.get a b =
        if a = b then (if a < n then (chebyshev_mom n (mom_jaclog S n)).get a 0 else 0)
        else if a = b + 1 ∧ a < n then S.sqrt ((chebyshev_mom n (mom_jaclog S n)).get a 1)
        else if b = a + 1 ∧ b < n then S.sqrt ((chebyshev_mom n (mom_jaclog S n)).get b 1)
        else 0 :=
  tridiagCoeffs_entries S _ n hn (chebyshev_dims n _ _).1 (chebyshev_dims n _ _).2

/-- For an eigenvector matrix with orthonormal columns, `normalized` leaves the first
component of each column unchanged. -/
theorem normalized_col_zero {K : Type} [LinearOrderedField K] (S : Scalar K)
    (hsqrt : S.sqrt 1 = 1) (n : Nat) (J : Mat K) (r : EigenResult K)
    (hE : ExactEigen n J r) (i : Nat) (hi : i < n) :
    (normalized S (r.eigenvectors.col i)).get 0 = r.eigenvectors.get 0 i := by
  obtain ⟨_, hrows, _, horth, _⟩ := hE
  have hz : squaredNorm (r.eigenvectors.col i) = 1 := by
    unfold squaredNorm
    rw [forLoop_sum]
    show Finset.sum (Finset.range r.eigenvectors.rows)
      (fun k => r.eigenvectors.get k i * r.eigenvectors.get k i) = 1
    rw [hrows, horth i i hi hi, if_pos rfl]
  unfold normalized
  simp only [hz]
  rw [if_pos (by norm_num), hsqrt]
  show r.eigenvectors.get 0 i / 1 = r.eigenvectors.get 0 i
  rw [div_one]

/-- The rows of a square matrix with orthonormal columns are orthonormal too. -/
theorem orthonormal_rows {K : Type} [Field K] (n : Nat) (V : Mat K)
    (horth : ∀ i j : Nat, i < n → j < n →
      Finset.sum (Finset.range n) (fun k => V.get k i * V.get k j) = if i = j then 1 else 0)
    (a b : Nat) (ha : a < n) (hb : b < n) :
    Finset.sum (Finset.range n) (fun k => V.get a k * V.get b k) = if a = b then 1 else 0 := by
  have h1 : (V.toMatrix n).transpose * V.toMatrix n = 1 := by
    ext i j
    rw [Matrix.mul_apply]
    have := horth i.val j.val i.isLt j.isLt
    rw [Finset.sum_range] at this
    simp only [Matrix.transpose_apply, Mat.toMatrix, Matrix.of_apply]
    rw [this, Matrix.one_apply]
    simp only [Fin.ext_iff]
  have h2 : V.toMatrix n * (V.toMatrix n).transpose = 1 := (Matrix.mul_eq_one_comm).mp h1
  have h3 := congrFun (congrFun h2 ⟨a, ha⟩) ⟨b, hb⟩
  rw [Matrix.mul_apply, Matrix.one_apply] at h3
  rw [Finset.sum_range]
  simp only [Matrix.transpose_apply, Mat.toMatrix, Matrix.of_apply, Fin.ext_iff] at h3
  exact h3

/-- C3: for every `n ≥ 1`, when the eigen-solver returns an orthonormal eigenvector basis
of the Jacobi matrix, the weights in column 1 of `log_nw(n)` sum to the zeroth moment,
entry 0 of `mom_jaclog(n)`. -/
theorem log_nw_weights_sum {K : Type} [LinearOrderedField K] (S : Scalar K)
    (solve : Mat K → EigenResult K) (n : Nat) (hn : 1 ≤ n)
    (hG : GammaExact S) (hD : DigammaExact S) (hsqrt : S.sqrt 1 = 1)
    (hsolve : ∀ J : Mat K, tridiagCoeffs S (chebyshev_mom n (mom_jaclog S n)) n = some J →
      ExactEigen n J (solve J)) :
    ∃ nw : Mat K, log_nw S solve n = some nw ∧ nw.rows = n ∧ nw.cols = 2 ∧
      Finset.sum (Finset.range n) (fun i => nw.get i 1) = (mom_jaclog S n).get 0 := by
  obtain ⟨J, hJ, _⟩ := log_nw_jacobi_exists S n hn
  obtain ⟨nw, hnw, hr, hc, _, hw⟩ := log_nw_get S solve n J hJ
  have hE := hsolve J hJ
  refine ⟨nw, hnw, hr, hc, ?_⟩
  have hm : (mom_jaclog S n).get 0 = 1 := by
    rw [mom_jaclog_closed S hG hD n 0 (by omega)]
    norm_num
  rw [hm]
  have hrow := orthonormal_rows n (solve J).eigenvectors hE.2.2.2.1 0 0 (by omega) (by omega)
  rw [if_pos rfl] at hrow
  rw [← hrow]
  apply Finset.sum_congr rfl
  intro i hi
  have hi2 : i < n := Finset.mem_range.mp hi
  rw [hw i hi2, normalized_col_zero S hsqrt n J (solve J) hE i hi2]
  ring

theorem ratScalar_sqrt_one : ratScalar.sqrt 1 = 1 := by
  show ((Nat.sqrt (1 : ℚ).num.toNat : ℚ) / (Nat.sqrt (1 : ℚ).den : ℚ)) = 1
  have hn : (1 : ℚ).num.toNat = 1 := by simp
  have hd : (1 : ℚ).den = 1 := by simp
  rw [hn, hd, Nat.sqrt_one]
  norm_num

/-- On a `1×1` system `unitSolve` is an exact eigen-decomposition. -/
theorem unitSolve_exact {K : Type} [Field K] (J : Mat K) : ExactEigen 1 J (unitSolve J) := by
  refine ⟨rfl, rfl, rfl, ?_, ?_⟩
  · intro i j hi hj
    have : i = j := by omega
    simp [unitSolve, this]
  · intro i j hi hj
    have e1 : i = 0 := by omega
    subst e1
    simp [unitSolve]

/-! ## The Chebyshev recursion for small sizes -/

/-- The table `chebyshev(1, mom)`: the single row `(mom[1]/mom[0], mom[0])`. -/
theorem chebyshev_mom_one {K : Type} [Field K] (mom : Vec K) :
    (chebyshev_mom 1 mom).get 0 0 = mom.get 1 / mom.get 0 ∧
    (chebyshev_mom 1 mom).get 0 1 = mom.get 0 := by
  constructor
  · simp [chebyshev_mom, chebyshev, forLoop, loopFrom, Mat.set, Mat.Zero]
  · simp [chebyshev_mom, chebyshev, forLoop, loopFrom, Mat.set, Mat.Zero]

/-- The table `chebyshev(2, mom)`. -/
theorem chebyshev_mom_two {K : Type} [Field K] (mom : Vec K) :
    (chebyshev_mom 2 mom).get 0 0 = mom.get 1 / mom.get 0 ∧
    (chebyshev_mom 2 mom).get 0 1 = mom.get 0 ∧
    (chebyshev_mom 2 mom).get 1 0 =
      (mom.get 3 - mom.get 1 / mom.get 0 * mom.get 2)
        / (mom.get 2 - mom.get 1 / mom.get 0 * mom.get 1) - mom.get 1 / mom.get 0 ∧
    (chebyshev_mom 2 mom).get 1 1 =
      (mom.get 2 - mom.get 1 / mom.get 0 * mom.get 1) / mom.get 0 := by
  refine ⟨?_, ?_, ?_, ?_⟩
  · simp [chebyshev_mom, chebyshev, forLoop, loopFrom, Mat.set, Mat.setRow, Mat.Zero]
  · simp [chebyshev_mom, chebyshev, forLoop, loopFrom, Mat.set, Mat.setRow, Mat.Zero]
  · simp [chebyshev_mom, chebyshev, forLoop, loopFrom, Mat.set, Mat.setRow, Mat.Zero]
  · simp [chebyshev_mom, chebyshev, forLoop, loopFrom, Mat.set, Mat.setRow, Mat.Zero]

/-! ## The degenerate rule of size one -/

/-- C8: `log_nw(1)` returns exactly one node/weight pair; its weight equals the zeroth
moment `mom_jaclog(1)[0]` and its node the single entry `α₀ = mom[1]/mom[0]` of the `1×1`
Jacobi matrix, the eigen-solver returning that entry with unit eigenvector `±[1]`. -/
theorem log_nw_one {K : Type} [LinearOrderedField K] (S : Scalar K)
    (solve : Mat K → EigenResult K)
    (hG : GammaExact S) (hD : DigammaExact S) (hsqrt : S.sqrt 1 = 1)
    (hsolve : ∀ J : Mat K, J.rows = 1 → J.cols = 1 →
      (solve J).eigenvalues.get 0 = J.get 0 0 ∧ (solve J).eigenvectors.rows = 1 ∧
      ((solve J).eigenvectors.get 0 0 = 1 ∨ (solve J).eigenvectors.get 0 0 = -1)) :
    ∃ nw J : Mat K, log_nw S solve 1 = some nw ∧
      tridiagCoeffs S (chebyshev_mom 1 (mom_jaclog S 1)) 1 = some J ∧
      nw.rows = 1 ∧ nw.cols = 2 ∧
      nw.get 0 1 = (mom_jaclog S 1).get 0 ∧
      nw.get 0 0 = J.get 0 0 ∧
      J.get 0 0 = (mom_jaclog S 1).get 1 / (mom_jaclog S 1).get 0 := by
  obtain ⟨J, hJ, hJr, hJc, hJg⟩ := log_nw_jacobi_exists S 1 (le_refl 1)
  obtain ⟨nw, hnw, hr, hc, hx, hw⟩ := log_nw_get S solve 1 J hJ
  obtain ⟨hval, hrows, hvec⟩ := hsolve J hJr hJc
  refine ⟨nw, J, hnw, hJ, hr, hc, ?_, ?_, ?_⟩
  · rw [hw 0 (by decide)]
    have hm : (mom_jaclog S 1).get 0 = 1 := by
      rw [mom_jaclog_closed S hG hD 1 0 (by decide)]
      norm_num
    have hsq : (solve J).eigenvectors.get 0 0 * (solve J).eigenvectors.get 0 0 = 1 := by
      rcases hvec with h | h <;> rw [h] <;> norm_num
    have hz : squaredNorm ((solve J).eigenvectors.col 0) = 1 := by
      unfold squaredNorm
      rw [forLoop_sum]
      show Finset.sum (Finset.range (solve J).eigenvectors.rows)
        (fun k => (solve J).eigenvectors.get k 0 * (solve J).eigenvectors.get k 0) = 1
      rw [hrows, Finset.sum_range_one, hsq]
    have hnorm : (normalized S ((solve J).eigenvectors.col 0)).get 0
        = (solve J).eigenvectors.get 0 0 := by
      unfold normalized
      simp only [hz]
      rw [if_pos (by norm_num), hsqrt]
      show (solve J).eigenvectors.get 0 0 / 1 = (solve J).eigenvectors.get 0 0
      rw [div_one]
    rw [hnorm, hm, one_mul, pow_two, hsq]
  · rw [hx 0 (by decide), hval]
  · rw [hJg 0 0, if_pos rfl, if_pos (by decide), (chebyshev_mom_one _).1]

/-- Witness for C8 over the rationals, with the `1×1` eigen-decomposition. -/
theorem log_nw_one_witness :
    (GammaExact ratScalar ∧ DigammaExact ratScalar ∧ ratScalar.sqrt 1 = 1 ∧
      ∀ J : Mat ℚ, J.rows = 1 → J.cols = 1 →
        (unitSolve J).eigenvalues.get 0 = J.get 0 0 ∧ (unitSolve J).eigenvectors.rows = 1 ∧
        ((unitSolve J).eigenvectors.get 0 0 = 1 ∨ (unitSolve J).eigenvectors.get 0 0 = -1)) ∧
    ∃ nw J : Mat ℚ, log_nw ratScalar unitSolve 1 = some nw ∧
      tridiagCoeffs ratScalar (chebyshev_mom 1 (mom_jaclog ratScalar 1)) 1 = some J ∧
      nw.rows = 1 ∧ nw.cols = 2 ∧
      nw.get 0 1 = (mom_jaclog ratScalar 1).get 0 ∧
      nw.get 0 0 = J.get 0 0 ∧
      J.get 0 0 = (mom_jaclog ratScalar 1).get 1 / (mom_jaclog ratScalar 1).get 0 :=
  ⟨⟨ratScalar_gammaExact, ratScalar_digammaExact, ratScalar_sqrt_one,
      fun _ _ _ => ⟨rfl, rfl, Or.inl rfl⟩⟩,
    log_nw_one ratScalar unitSolve ratScalar_gammaExact ratScalar_digammaExact
      ratScalar_sqrt_one (fun _ _ _ => ⟨rfl, rfl, Or.inl rfl⟩)⟩

/-! ## The Chebyshev recursion and orthogonality -/

theorem logMoments6_hankelPositive : HankelPositive 3 logMoments6 := by
  intro k h1 h3
  interval_cases k
  · simp [hankel, logMoments6]
  · rw [Matrix.det_fin_two]
    simp [hankel, logMoments6]
    norm_num
  · rw [Matrix.det_fin_three]
    simp [hankel, logMoments6]
    norm_num

/-- C2 (failing input): for `n = 3` and the moments `1/(k+1)²`, whose Hankel determinants
are positive, `chebyshev(3, mom)` returns `α₁ = 5/16`, `β₁ = 1/9`, and the polynomial `π₂`
built from the table is not orthogonal to the constants: `L(π₂·x⁰) = −1/16`. -/
theorem chebyshev_three_not_orthogonal :
    logMoments6.size = 2 * 3 ∧ HankelPositive 3 logMoments6 ∧
    (chebyshev_mom 3 logMoments6).get 1 0 = 5 / 16 ∧
    (chebyshev_mom 3 logMoments6).get 1 1 = 1 / 9 ∧
    momentFunctional logMoments6 0 (monicPoly (chebyshev_mom 3 logMoments6) 2) = -1 / 16 ∧
    momentFunctional logMoments6 0 (monicPoly (chebyshev_mom 3 logMoments6) 2) ≠ 0 := by
  have h10 : (chebyshev_mom 3 logMoments6).get 1 0 = 5 / 16 := by
    simp [chebyshev_mom, chebyshev, forLoop, loopFrom, Mat.set, Mat.setRow, Mat.Zero,
      logMoments6]
    norm_num
  have h11 : (chebyshev_mom 3 logMoments6).get 1 1 = 1 / 9 := by
    simp [chebyshev_mom, chebyshev, forLoop, loopFrom, Mat.set, Mat.setRow, Mat.Zero,
      logMoments6]
    norm_num
  have h00 : (chebyshev_mom 3 logMoments6).get 0 0 = 1 / 4 := by
    simp [chebyshev_mom, chebyshev, forLoop, loopFrom, Mat.set, Mat.setRow, Mat.Zero,
      logMoments6]
    norm_num
  have hL : momentFunctional logMoments6 0 (monicPoly (chebyshev_mom 3 logMoments6) 2)
      = -1 / 16 := by
    simp only [monicPoly, polyAdd, polyMulX, polyScale, List.map, momentFunctional, h10, h11,
      h00]
    simp [logMoments6]
    norm_num
  refine ⟨rfl, logMoments6_hankelPositive, h10, h11, hL, ?_⟩
  rw [hL]; norm_num

/-! ## Golub–Welsch: power sums of the rule are entries of powers of the Jacobi matrix -/

/-- For an exact eigen-decomposition `(λ, V)` of `J`, the sum `Σᵢ V₀ᵢ²·λᵢᵏ` is the
`(0,0)` entry of `Jᵏ`. -/
theorem power_sum_eq_pow_entry {K : Type} [Field K] (n : Nat) (hn : 1 ≤ n) (J : Mat K)
    (r : EigenResult K) (hE : ExactEigen n J r) (k : Nat) :
    Finset.sum (Finset.range n)
      (fun i => r.eigenvectors.get 0 i ^ 2 * r.eigenvalues.get i ^ k)
      = ((J.toMatrix n) ^ k) ⟨0, hn⟩ ⟨0, hn⟩ := by
  obtain ⟨_, _, _, horth, heig⟩ := hE
  have hVtV : (r.eigenvectors.toMatrix n).transpose * r.eigenvectors.toMatrix n = 1 := by
    ext i j
    rw [Matrix.mul_apply]
    have := horth i.val j.val i.isLt j.isLt
    rw [Finset.sum_range] at this
    simp only [Matrix.transpose_apply, Mat.toMatrix, Matrix.of_apply]
    rw [this, Matrix.one_apply]
    simp only [Fin.ext_iff]
  have hVVt : r.eigenvectors.toMatrix n * (r.eigenvectors.toMatrix n).transpose = 1 :=
    (Matrix.mul_eq_one_comm).mp hVtV
  have hAV : J.toMatrix n * r.eigenvectors.toMatrix n
      = r.eigenvectors.toMatrix n * Matrix.diagonal (fun i : Fin n => r.eigenvalues.get i.val) := by
    ext i j
    rw [Matrix.mul_apply, Matrix.mul_diagonal]
    have := heig i.val j.val i.isLt j.isLt
    rw [Finset.sum_range] at this
    simp only [Mat.toMatrix, Matrix.of_apply]
    rw [this]
    ring
  have hpow : ∀ m : Nat, (J.toMatrix n) ^ m * r.eigenvectors.toMatrix n
      = r.eigenvectors.toMatrix n
        * Matrix.diagonal (fun i : Fin n => r.eigenvalues.get i.val ^ m) := by
    intro m
    induction m with
    | zero =>
      simp only [pow_zero, Matrix.one_mul]
      rw [Matrix.diagonal_one, Matrix.mul_one]
    | succ m ih =>
      rw [pow_succ, Matrix.mul_assoc, hAV, ← Matrix.mul_assoc, ih, Matrix.mul_assoc,
        Matrix.diagonal_mul_diagonal]
      have e : (fun i : Fin n => r.eigenvalues.get i.val ^ m * r.eigenvalues.get i.val)
          = (fun i : Fin n => r.eigenvalues.get i.val ^ (m + 1)) := by
        funext i
        rw [pow_succ]
      rw [e]
  have hJk : (J.toMatrix n) ^ k
      = r.eigenvectors.toMatrix n
        * Matrix.diagonal (fun i : Fin n => r.eigenvalues.get i.val ^ k)
        * (r.eigenvectors.toMatrix n).transpose := by
    rw [← hpow k, Matrix.mul_assoc, hVVt, Matrix.mul_one]
  rw [hJk, Matrix.mul_apply, Finset.sum_range]
  apply Finset.sum_congr rfl
  intro i _
  rw [Matrix.mul_diagonal]
  simp only [Matrix.transpose_apply, Mat.toMatrix, Matrix.of_apply]
  ring

/-- An exact square root maps `1` to `1`. -/
theorem SqrtExact.sqrt_one {K : Type} [LinearOrderedField K] (S : Scalar K)
    (hS : SqrtExact S) : S.sqrt 1 = 1 := by
  obtain ⟨h0, h1⟩ := hS 1 zero_le_one
  nlinarith [h0, h1]

/-- Weights and nodes of `log_nw(n)` under an exact eigen-decomposition: node `i` is
eigenvalue `i`, weight `i` the squared first component of eigenvector `i`. -/
theorem log_nw_exact_rows {K : Type} [LinearOrderedField K] (S : Scalar K)
    (solve : Mat K → EigenResult K) (n : Nat) (hn : 1 ≤ n) (hsqrt : S.sqrt 1 = 1)
    (hsolve : ∀ J : Mat K, tridiagCoeffs S (chebyshev_mom n (mom_jaclog S n)) n = some J →
      ExactEigen n J (solve J)) :
    ∃ nw J : Mat K, log_nw S solve n = some nw ∧
      tridiagCoeffs S (chebyshev_mom n (mom_jaclog S n)) n = some J ∧
      nw.rows = n ∧ nw.cols = 2 ∧
      (∀ i : Nat, i < n → nw.get i 0 = (solve J).eigenvalues.get i) ∧
      (∀ i : Nat, i < n → nw.get i 1 = (solve J).eigenvectors.get 0 i ^ 2) := by
  obtain ⟨J, hJ, _⟩ := log_nw_jacobi_exists S n hn
  obtain ⟨nw, hnw, hr, hc, hx, hw⟩ := log_nw_get S solve n J hJ
  refine ⟨nw, J, hnw, hJ, hr, hc, hx, ?_⟩
  intro i hi
  rw [hw i hi, normalized_col_zero S hsqrt n J (solve J) (hsolve J hJ) i hi, one_mul]

/-- The power sums `Σᵢ wᵢ·xᵢᵏ` of the rule `log_nw(2)` for `k = 0, 1, 2, 3` are the
moments `1/(k+1)²`, for exact library functions and an exact eigen-decomposition. -/
theorem log_nw_two_power_sums {K : Type} [LinearOrderedField K] (S : Scalar K)
    (solve : Mat K → EigenResult K)
    (hG : GammaExact S) (hD : DigammaExact S) (hS : SqrtExact S)
    (hsolve : ∀ J : Mat K, tridiagCoeffs S (chebyshev_mom 2 (mom_jaclog S 2)) 2 = some J →
      ExactEigen 2 J (solve J)) :
    ∃ nw : Mat K, log_nw S solve 2 = some nw ∧ nw.rows = 2 ∧ nw.cols = 2 ∧
      ∀ k : Nat, k < 4 →
        Finset.sum (Finset.range 2) (fun i => nw.get i 1 * nw.get i 0 ^ k)
          = 1 / ((k : K) + 1) ^ 2 := by
  obtain ⟨nw, J, hnw, hJ, hr, hc, hx, hw⟩ :=
    log_nw_exact_rows S solve 2 (by decide) (SqrtExact.sqrt_one S hS) hsolve
  obtain ⟨J2, hJ2, _, _, hget⟩ := log_nw_jacobi_exists S 2 (by decide)
  have hJJ : J2 = J := by
    rw [hJ] at hJ2
    exact (Option.some.inj hJ2).symm
  subst hJJ
  have m0 : (mom_jaclog S 2).get 0 = 1 := by
    rw [mom_jaclog_closed S hG hD 2 0 (by decide)]; norm_num
  have m1 : (mom_jaclog S 2).get 1 = 1 / 4 := by
    rw [mom_jaclog_closed S hG hD 2 1 (by decide)]; norm_num
  have m2 : (mom_jaclog S 2).get 2 = 1 / 9 := by
    rw [mom_jaclog_closed S hG hD 2 2 (by decide)]; norm_num
  have m3 : (mom_jaclog S 2).get 3 = 1 / 16 := by
    rw [mom_jaclog_closed S hG hD 2 3 (by decide)]; norm_num
  obtain ⟨c00, _, c10, c11⟩ := chebyshev_mom_two (mom_jaclog S 2)
  rw [m0, m1] at c00
  rw [m0, m1, m2, m3] at c10
  rw [m0, m1, m2] at c11
  have c00v : (chebyshev_mom 2 (mom_jaclog S 2)).get 0 0 = 1 / 4 := by
    rw [c00]; norm_num
  have c10v : (chebyshev_mom 2 (mom_jaclog S 2)).get 1 0 = 13 / 28 := by
    rw [c10]; norm_num
  have c11v : (chebyshev_mom 2 (mom_jaclog S 2)).get 1 1 = 7 / 144 := by
    rw [c11]; norm_num
  have j00 : J2.get 0 0 = 1 / 4 := by
    rw [hget 0 0, if_pos rfl, if_pos (by decide), c00v]
  have j11 : J2.get 1 1 = 13 / 28 := by
    rw [hget 1 1, if_pos rfl, if_pos (by decide), c10v]
  have j10 : J2.get 1 0 = S.sqrt (7 / 144) := by
    rw [hget 1 0, if_neg (by decide), if_pos (by decide), c11v]
  have j01 : J2.get 0 1 = S.sqrt (7 / 144) := by
    rw [hget 0 1, if_neg (by decide), if_neg (by decide), if_pos (by decide), c11v]
  have hs : S.sqrt (7 / 144) * S.sqrt (7 / 144) = 7 / 144 := (hS (7 / 144) (by norm_num)).2
  have hE := hsolve J2 hJ
  refine ⟨nw, hnw, hr, hc, ?_⟩
  intro k hk
  have hsum : Finset.sum (Finset.range 2) (fun i => nw.get i 1 * nw.get i 0 ^ k)
      = ((J2.toMatrix 2) ^ k) ⟨0, by decide⟩ ⟨0, by decide⟩ := by
    rw [← power_sum_eq_pow_entry 2 (by decide) J2 (solve J2) hE k]
    apply Finset.sum_congr rfl
    intro i hi
    have hi2 : i < 2 := Finset.mem_range.mp hi
    rw [hw i hi2, hx i hi2]
  rw [hsum]
  have hA : J2.toMatrix 2 = !![1 / 4, S.sqrt (7 / 144); S.sqrt (7 / 144), 13 / 28] := by
    ext i j
    fin_cases i <;> fin_cases j <;> simp [Mat.toMatrix, j00, j01, j10, j11]
  rw [hA]
  generalize S.sqrt (7 / 144) = s at hs
  interval_cases k
  · simp
  · simp
    norm_num
  · simp [pow_succ, Matrix.mul_apply, Fin.sum_univ_two]
    linear_combination hs
  · simp [pow_succ, Matrix.mul_apply, Fin.sum_univ_two]
    linear_combination (1 / 4 + 1 / 4 + 13 / 28) * hs

/-! ## The ideal library over the reals -/

theorem realScalar_gammaExact : GammaExact realScalar := by
  intro m
  exact Real.Gamma_nat_eq_factorial m

theorem realScalar_digammaExact : DigammaExact realScalar := by
  intro m
  show ((harmonic (⌊(m : ℝ) + 1 + 1⌋₊ - 1) : ℝ) - Real.eulerMascheroniConstant)
    - ((harmonic (⌊(m : ℝ) + 1⌋₊ - 1) : ℝ) - Real.eulerMascheroniConstant) = 1 / ((m : ℝ) + 1)
  have f1 : ⌊(m : ℝ) + 1⌋₊ = m + 1 := by
    have : (m : ℝ) + 1 = ((m + 1 : Nat) : ℝ) := by push_cast; ring
    rw [this, Nat.floor_natCast]
  have f2 : ⌊(m : ℝ) + 1 + 1⌋₊ = m + 2 := by
    have : (m : ℝ) + 1 + 1 = ((m + 2 : Nat) : ℝ) := by push_cast; ring
    rw [this, Nat.floor_natCast]
  rw [f1, f2]
  have e1 : m + 2 - 1 = m + 1 := by omega
  have e2 : m + 1 - 1 = m := by omega
  rw [e1, e2, harmonic_succ]
  push_cast
  ring

theorem realScalar_sqrtExact : SqrtExact realScalar := by
  intro x hx
  exact ⟨Real.sqrt_nonneg x, Real.mul_self_sqrt hx⟩

/-- On a symmetric matrix `spectralSolve` is an exact orthonormal eigen-decomposition. -/
theorem spectralSolve_exact (n : Nat) (J : Mat ℝ) (hrows : J.rows = n)
    (hsymm : ∀ i j : Nat, J.get i j = J.get j i) :
    ExactEigen n J (spectralSolve J) := by
  subst hrows
  have hH : (J.toMatrix J.rows).IsHermitian := by
    ext i j
    simp [Mat.toMatrix, Matrix.conjTranspose_apply, hsymm i.val j.val]
  unfold spectralSolve
  rw [dif_pos hH]
  refine ⟨rfl, rfl, rfl, ?_, ?_⟩
  · intro i j hi hj
    rw [Finset.sum_range]
    have hU := (Matrix.mem_unitaryGroup_iff').mp (hH.eigenvectorUnitary).2
    have h3 := congrFun (congrFun hU ⟨i, hi⟩) ⟨j, hj⟩
    rw [Matrix.mul_apply, Matrix.one_apply] at h3
    simp only [Matrix.star_apply, star_trivial, Fin.ext_iff] at h3
    rw [← h3]
    apply Finset.sum_congr rfl
    intro k _
    simp only [k.isLt, hi, hj, and_self, dite_true]
  · intro i j hi hj
    rw [Finset.sum_range]
    have h1 := congrFun (hH.mulVec_eigenvectorBasis ⟨j, hj⟩) ⟨i, hi⟩
    simp only [Matrix.mulVec, Matrix.dotProduct, Pi.smul_apply, smul_eq_mul] at h1
    simp only [hi, hj, and_self, dite_true]
    rw [Matrix.IsHermitian.eigenvectorUnitary_apply, ← h1]
    apply Finset.sum_congr rfl
    intro k _
    simp only [k.isLt, hj, and_self, dite_true, Mat.toMatrix, Matrix.of_apply,
      Matrix.IsHermitian.eigenvectorUnitary_apply]

/-- The Jacobi matrix of `log_nw(n)` is symmetric. -/
theorem log_nw_jacobi_symm {K : Type} [Field K] (S : Scalar K) (n : Nat) (hn : 1 ≤ n)
    (J : Mat K) (hJ : tridiagCoeffs S (chebyshev_mom n (mom_jaclog S n)) n = some J) :
    J.rows = n ∧ ∀ i j : Nat, J.get i j = J.get j i := by
  obtain ⟨J2, hJ2, hrows, _, hget⟩ := log_nw_jacobi_exists S n hn
  have hJJ : J2 = J := by
    rw [hJ] at hJ2
    exact (Option.some.inj hJ2).symm
  subst hJJ
  refine ⟨hrows, ?_⟩
  intro i j
  rw [hget i j, hget j i]
  by_cases hij : i = j
  · subst hij; rfl
  · have hji : ¬ j = i := fun h => hij h.symm
    by_cases h1 : i = j + 1 ∧ i < n
    · have h2 : ¬ (j = i + 1 ∧ j < n) := by omega
      simp only [if_neg hij, if_neg hji, if_pos h1, if_neg h2]
    · by_cases h2 : j = i + 1 ∧ j < n
      · simp only [if_neg hij, if_neg hji, if_neg h1, if_pos h2]
      · simp only [if_neg hij, if_neg hji, if_neg h1, if_neg h2]

/-- The ideal solver is exact on the Jacobi matrix of `log_nw(n)`. -/
theorem spectralSolve_exact_jacobi (n : Nat) (hn : 1 ≤ n) (J : Mat ℝ)
    (hJ : tridiagCoeffs realScalar (chebyshev_mom n (mom_jaclog realScalar n)) n = some J) :
    ExactEigen n J (spectralSolve J) :=
  spectralSolve_exact n J (log_nw_jacobi_symm realScalar n hn J hJ).1
    (log_nw_jacobi_symm realScalar n hn J hJ).2

/-! ## Exactness of the two-point rule -/

/-- A rule whose power sums up to order `m-1` are `μ₀, ..., μ_{m-1}` integrates every
polynomial of degree below `m` to the matching combination of the `μₖ`. -/
theorem quadrature_of_power_sums {K : Type} [Field K] (w x μ : Nat → K) (n m : Nat)
    (h : ∀ k : Nat, k < m → Finset.sum (Finset.range n) (fun i => w i * x i ^ k) = μ k)
    (p : Polynomial K) (hp : p.natDegree < m) :
    Finset.sum (Finset.range n) (fun i => w i * p.eval (x i))
      = Finset.sum (Finset.range m) (fun k => p.coeff k * μ k) := by
  have e1 : ∀ i : Nat, w i * p.eval (x i)
      = Finset.sum (Finset.range m) (fun k => p.coeff k * (w i * x i ^ k)) := by
    intro i
    rw [Polynomial.eval_eq_sum_range' hp, Finset.mul_sum]
    apply Finset.sum_congr rfl
    intro k _
    ring
  simp only [e1]
  rw [Finset.sum_comm]
  apply Finset.sum_congr rfl
  intro k hk
  rw [← Finset.mul_sum, h k (Finset.mem_range.mp hk)]

/-- C1 (as stated, refuted): for `n = 2`, exact library functions and an exact
eigen-decomposition, the rule `log_nw(2)` integrates the constant polynomial `1` to `1`,
whereas the claimed value `Σ cₖ·μₖ` with `μₖ = −1/(k+1)²` is `−1`. -/
theorem log_nw_two_constant_refutes :
    (GammaExact realScalar ∧ DigammaExact realScalar ∧ SqrtExact realScalar ∧
      ∀ J : Mat ℝ, tridiagCoeffs realScalar (chebyshev_mom 2 (mom_jaclog realScalar 2)) 2
        = some J → ExactEigen 2 J (spectralSolve J)) ∧
    1 < 2 ∧ (Polynomial.C (1 : ℝ)).natDegree ≤ 2 * 2 - 1 ∧
    ∃ nw : Mat ℝ, log_nw realScalar spectralSolve 2 = some nw ∧
      Finset.sum (Finset.range 2)
        (fun i => nw.get i 1 * (Polynomial.C (1 : ℝ)).eval (nw.get i 0)) = 1 ∧
      Finset.sum (Finset.range (2 * 2))
        (fun k => (Polynomial.C (1 : ℝ)).coeff k * (-1 / ((k : ℝ) + 1) ^ 2)) = -1 ∧
      Finset.sum (Finset.range 2)
        (fun i => nw.get i 1 * (Polynomial.C (1 : ℝ)).eval (nw.get i 0))
        ≠ Finset.sum (Finset.range (2 * 2))
          (fun k => (Polynomial.C (1 : ℝ)).coeff k * (-1 / ((k : ℝ) + 1) ^ 2)) := by
  obtain ⟨nw, hnw, _, _, hps⟩ := log_nw_two_power_sums realScalar spectralSolve
    realScalar_gammaExact realScalar_digammaExact realScalar_sqrtExact
    (spectralSolve_exact_jacobi 2 (by decide))
  have h0 := hps 0 (by decide)
  have hl : Finset.sum (Finset.range 2)
      (fun i => nw.get i 1 * (Polynomial.C (1 : ℝ)).eval (nw.get i 0)) = 1 := by
    simp only [Polynomial.eval_C, mul_one]
    simp only [pow_zero, mul_one] at h0
    rw [h0]; norm_num
  have hr : Finset.sum (Finset.range (2 * 2))
      (fun k => (Polynomial.C (1 : ℝ)).coeff k * (-1 / ((k : ℝ) + 1) ^ 2)) = -1 := by
    simp [Finset.sum_range_succ, Polynomial.coeff_one]
  refine ⟨⟨realScalar_gammaExact, realScalar_digammaExact, realScalar_sqrtExact,
    spectralSolve_exact_jacobi 2 (by decide)⟩, by decide, ?_, nw, hnw, hl, hr, ?_⟩
  · rw [Polynomial.natDegree_C]; exact Nat.zero_le _
  · rw [hl, hr]; norm_num

/-- C1 (amended): for `n = 2` and every polynomial `p` of degree `≤ 2n−1 = 3`, the rule
returned by `log_nw(2)` satisfies `Σ wᵢ·p(xᵢ) = Σ cₖ·μₖ` with `μₖ = +1/(k+1)²`, taking
`Γ`, `ψ`, `sqrt` as exact and the eigen-solver as an exact orthonormal
eigen-decomposition of the Jacobi matrix. -/
theorem log_nw_two_exact {K : Type} [LinearOrderedField K] (S : Scalar K)
    (solve : Mat K → EigenResult K)
    (hG : GammaExact S) (hD : DigammaExact S) (hS : SqrtExact S)
    (hsolve : ∀ J : Mat K, tridiagCoeffs S (chebyshev_mom 2 (mom_jaclog S 2)) 2 = some J →
      ExactEigen 2 J (solve J))
    (p : Polynomial K) (hp : p.natDegree ≤ 2 * 2 - 1) :
    ∃ nw : Mat K, log_nw S solve 2 = some nw ∧ nw.rows = 2 ∧ nw.cols = 2 ∧
      Finset.sum (Finset.range 2) (fun i => nw.get i 1 * p.eval (nw.get i 0))
        = Finset.sum (Finset.range (2 * 2)) (fun k => p.coeff k * (1 / ((k : K) + 1) ^ 2)) := by
  obtain ⟨nw, hnw, hr, hc, hps⟩ := log_nw_two_power_sums S solve hG hD hS hsolve
  refine ⟨nw, hnw, hr, hc, ?_⟩
  exact quadrature_of_power_sums (fun i => nw.get i 1) (fun i => nw.get i 0)
    (fun k => 1 / ((k : K) + 1) ^ 2) 2 (2 * 2) hps p (by omega)

/-- Witness for the amended C1: the cubic `x³` over the reals with the ideal solver. -/
theorem log_nw_two_exact_witness :
    (GammaExact realScalar ∧ DigammaExact realScalar ∧ SqrtExact realScalar ∧
      (∀ J : Mat ℝ, tridiagCoeffs realScalar (chebyshev_mom 2 (mom_jaclog realScalar 2)) 2
        = some J → ExactEigen 2 J (spectralSolve J)) ∧
      (Polynomial.X ^ 3 : Polynomial ℝ).natDegree ≤ 2 * 2 - 1) ∧
    ∃ nw : Mat ℝ, log_nw realScalar spectralSolve 2 = some nw ∧ nw.rows = 2 ∧ nw.cols = 2 ∧
      Finset.sum (Finset.range 2)
        (fun i => nw.get i 1 * (Polynomial.X ^ 3 : Polynomial ℝ).eval (nw.get i 0))
        = Finset.sum (Finset.range (2 * 2))
          (fun k => (Polynomial.X ^ 3 : Polynomial ℝ).coeff k * (1 / ((k : ℝ) + 1) ^ 2)) :=
  ⟨⟨realScalar_gammaExact, realScalar_digammaExact, realScalar_sqrtExact,
      spectralSolve_exact_jacobi 2 (by decide),
      by rw [Polynomial.natDegree_X_pow]⟩,
    log_nw_two_exact realScalar spectralSolve realScalar_gammaExact realScalar_digammaExact
      realScalar_sqrtExact (spectralSolve_exact_jacobi 2 (by decide)) (Polynomial.X ^ 3)
      (by rw [Polynomial.natDegree_X_pow])⟩

/-! ## The call operator -/

/-- What `operator()(f)` computes from the table `log_nw(degree)`. -/
theorem call_eq {K : Type} [LinearOrderedField K] (self : GaussLogRule K) (S : Scalar K)
    (solve : Mat K → EigenResult K) (f : K → K) (nw : Mat K)
    (hnw : log_nw S solve self.degree = some nw) :
    self.call S solve f
      = some (Finset.sum (Finset.range nw.rows) (fun i => nw.get i 1 * f (nw.get i 0 - 1))) := by
  unfold GaussLogRule.call
  simp only [hnw]
  rw [forLoop_sum]
  rfl

/-- C7 (as stated, refuted): for degree 2 and `f(x) = x`, with exact library functions
and the ideal eigen-solver, `operator()(f)` returns `−3/4`, whereas the weighted sum
`Σᵢ wᵢ·f(xᵢ)` over the rows of `log_nw(2)` is `1/4`. -/
theorem call_identity_refutes :
    ∃ (r : GaussLogRule ℝ) (nw : Mat ℝ), GaussLogRule.ctor 2 = some r ∧
      log_nw realScalar spectralSolve r.degree = some nw ∧
      r.call realScalar spectralSolve (fun x => x) = some (-3 / 4) ∧
      Finset.sum (Finset.range 2) (fun i => nw.get i 1 * (fun x : ℝ => x) (nw.get i 0)) = 1 / 4 := by
  obtain ⟨nw, hnw, hr, _, hps⟩ := log_nw_two_power_sums realScalar spectralSolve
    realScalar_gammaExact realScalar_digammaExact realScalar_sqrtExact
    (spectralSolve_exact_jacobi 2 (by decide))
  have h0 := hps 0 (by decide)
  have h1 := hps 1 (by decide)
  simp only [pow_zero, mul_one] at h0
  simp only [pow_one] at h1
  norm_num at h0 h1
  refine ⟨{ nodes := [], weights := [], degree := 2 }, nw, rfl, hnw, ?_, ?_⟩
  · rw [call_eq _ realScalar spectralSolve _ nw hnw, hr]
    congr 1
    have : Finset.sum (Finset.range 2) (fun i => nw.get i 1 * (nw.get i 0 - 1))
        = Finset.sum (Finset.range 2) (fun i => nw.get i 1 * nw.get i 0)
          - Finset.sum (Finset.range 2) (fun i => nw.get i 1) := by
      rw [← Finset.sum_sub_distrib]
      apply Finset.sum_congr rfl
      intro i _
      ring
    rw [this, h0, h1]
    norm_num
  · exact h1

/-- C7 (amended): for every configured degree `n > 1` and every unary `f`,
`operator()(f)` returns `Σᵢ wᵢ·f(xᵢ − 1)` over `i = 0..n−1`, where `(xᵢ, wᵢ)` are the rows
of `log_nw(degree)`: each node is shifted by `−1` before `f` is applied. -/
theorem call_spec {K : Type} [LinearOrderedField K] (self : GaussLogRule K) (S : Scalar K)
    (solve : Mat K → EigenResult K) (f : K → K) (hdeg : 1 < self.degree) :
    ∃ nw : Mat K, log_nw S solve self.degree = some nw ∧ nw.rows = self.degree ∧
      nw.cols = 2 ∧
      self.call S solve f
        = some (Finset.sum (Finset.range self.degree)
            (fun i => nw.get i 1 * f (nw.get i 0 - 1))) := by
  obtain ⟨J, hJ, _⟩ := log_nw_jacobi_exists S self.degree (by omega)
  obtain ⟨nw, hnw, hr, hc, _, _⟩ := log_nw_get S solve self.degree J hJ
  refine ⟨nw, hnw, hr, hc, ?_⟩
  rw [call_eq self S solve f nw hnw, hr]

/-- Witness for the amended C7: degree 2 and `f(x) = x²` over the reals. -/
theorem call_spec_witness :
    1 < (GaussLogRule.mk [] [] 2 : GaussLogRule ℝ).degree ∧
    ∃ nw : Mat ℝ, log_nw realScalar spectralSolve 2 = some nw ∧ nw.rows = 2 ∧ nw.cols = 2 ∧
      (GaussLogRule.mk [] [] 2 : GaussLogRule ℝ).call realScalar spectralSolve (fun x => x ^ 2)
        = some (Finset.sum (Finset.range 2)
            (fun i => nw.get i 1 * (fun x : ℝ => x ^ 2) (nw.get i 0 - 1))) :=
  ⟨by decide, call_spec (GaussLogRule.mk [] [] 2) realScalar spectralSolve (fun x => x ^ 2)
    (by decide)⟩

/-- For `n ≤ 2` the table of `chebyshev(n, mom)` does hold the recurrence coefficients of
the monic orthogonal polynomials of the moment functional: `L(πᵢ·xʲ) = 0` for
`0 ≤ j < i ≤ n`, provided the Hankel determinants are positive. -/
theorem chebyshev_small_orthogonal {K : Type} [LinearOrderedField K] (n : Nat)
    (hn1 : 1 ≤ n) (hn2 : n ≤ 2) (mom : Vec K) (hH : HankelPositive n mom) :
    ∀ i j : Nat, j < i → i ≤ n →
      momentFunctional mom j (monicPoly (chebyshev_mom n mom) i) = 0 := by
  have h0 : 0 < mom.get 0 := by
    have := hH 1 (le_refl 1) hn1
    simpa [hankel] using this
  have h0ne : mom.get 0 ≠ 0 := ne_of_gt h0
  intro i j hji hin
  have hcases : n = 1 ∨ n = 2 := by omega
  rcases hcases with rfl | rfl
  · have hi : i = 1 := by omega
    have hj : j = 0 := by omega
    subst hi hj
    simp only [monicPoly, momentFunctional, (chebyshev_mom_one mom).1]
    field_simp
  · have h2 : 0 < mom.get 0 * mom.get 2 - mom.get 1 * mom.get 1 := by
      have := hH 2 (by decide) (le_refl 2)
      rw [Matrix.det_fin_two] at this
      simpa [hankel] using this
    have hDne : mom.get 0 * mom.get 2 - mom.get 1 * mom.get 1 ≠ 0 := ne_of_gt h2
    have hD : mom.get 2 - mom.get 1 / mom.get 0 * mom.get 1
        = (mom.get 0 * mom.get 2 - mom.get 1 * mom.get 1) / mom.get 0 := by
      field_simp
      ring
    obtain ⟨c00, _, c10, c11⟩ := chebyshev_mom_two mom
    rw [hD] at c10 c11
    obtain ⟨D, hDdef⟩ : ∃ D : K, D = mom.get 0 * mom.get 2 - mom.get 1 * mom.get 1 := ⟨_, rfl⟩
    rw [← hDdef] at hDne c10 c11
    have hcase : (i = 1 ∧ j = 0) ∨ (i = 2 ∧ j = 0) ∨ (i = 2 ∧ j = 1) := by omega
    rcases hcase with ⟨rfl, rfl⟩ | ⟨rfl, rfl⟩ | ⟨rfl, rfl⟩
    · simp only [monicPoly, momentFunctional, c00]
      field_simp
    · simp only [monicPoly, polyAdd, polyMulX, polyScale, List.map, momentFunctional, c00,
        c10, c11]
      field_simp
      subst hDdef
      ring
    · simp only [monicPoly, polyAdd, polyMulX, polyScale, List.map, momentFunctional, c00,
        c10, c11]
      field_simp
      subst hDdef
      ring

/-- On the moments `1/(k+1)²` and `n = 3`, the recursion of the literature (band term
from row `i-1`) yields `α₁ = 13/28`, `β₁ = 7/144` and polynomials that are orthogonal:
`L(πᵢ·xʲ) = 0` for all `0 ≤ j < i ≤ 3`. -/
theorem chebyshevTextbook_three_orthogonal :
    (chebyshevTextbook 3 (Mat.Zero (2 * 3 - 1) 2) logMoments6).get 1 0 = 13 / 28 ∧
    (chebyshevTextbook 3 (Mat.Zero (2 * 3 - 1) 2) logMoments6).get 1 1 = 7 / 144 ∧
    ∀ i j : Nat, j < i → i ≤ 3 →
      momentFunctional logMoments6 j
        (monicPoly (chebyshevTextbook 3 (Mat.Zero (2 * 3 - 1) 2) logMoments6) i) = 0 := by
  have h00 : (chebyshevTextbook 3 (Mat.Zero (2 * 3 - 1) 2) logMoments6).get 0 0 = 1 / 4 := by
    simp [chebyshevTextbook, forLoop, loopFrom, Mat.set, Mat.setRow, Mat.Zero, logMoments6]
    norm_num
  have h10 : (chebyshevTextbook 3 (Mat.Zero (2 * 3 - 1) 2) logMoments6).get 1 0 = 13 / 28 := by
    simp [chebyshevTextbook, forLoop, loopFrom, Mat.set, Mat.setRow, Mat.Zero, logMoments6]
    norm_num
  have h11 : (chebyshevTextbook 3 (Mat.Zero (2 * 3 - 1) 2) logMoments6).get 1 1 = 7 / 144 := by
    simp [chebyshevTextbook, forLoop, loopFrom, Mat.set, Mat.setRow, Mat.Zero, logMoments6]
    norm_num
  have h20 : (chebyshevTextbook 3 (Mat.Zero (2 * 3 - 1) 2) logMoments6).get 2 0
      = 8795 / 18116 := by
    simp [chebyshevTextbook, forLoop, loopFrom, Mat.set, Mat.setRow, Mat.Zero, logMoments6]
    norm_num
  have h21 : (chebyshevTextbook 3 (Mat.Zero (2 * 3 - 1) 2) logMoments6).get 2 1
      = 647 / 11025 := by
    simp [chebyshevTextbook, forLoop, loopFrom, Mat.set, Mat.setRow, Mat.Zero, logMoments6]
    norm_num
  refine ⟨h10, h11, ?_⟩
  intro i j hji hi
  have hcase : (i = 1 ∧ j = 0) ∨ (i = 2 ∧ j = 0) ∨ (i = 2 ∧ j = 1) ∨ (i = 3 ∧ j = 0)
      ∨ (i = 3 ∧ j = 1) ∨ (i = 3 ∧ j = 2) := by omega
  rcases hcase with ⟨rfl, rfl⟩ | ⟨rfl, rfl⟩ | ⟨rfl, rfl⟩ | ⟨rfl, rfl⟩ | ⟨rfl, rfl⟩ | ⟨rfl, rfl⟩
  all_goals
    simp only [monicPoly, polyAdd, polyMulX, polyScale, List.map, momentFunctional, h00, h10,
      h11, h20, h21]
    simp [logMoments6]
    norm_num

/-- First entries of the table `chebyshev(3, mom)`: in the iteration `i = 2` the band term
is read from the still empty row `n-1 = 2`, so `β₁ = mom[2]/mom[0]` and
`α₁ = mom[3]/mom[2] − mom[1]/mom[0]`. -/
theorem chebyshev_mom_three {K : Type} [Field K] (mom : Vec K) :
    (chebyshev_mom 3 mom).get 0 0 = mom.get 1 / mom.get 0 ∧
    (chebyshev_mom 3 mom).get 1 0 = mom.get 3 / mom.get 2 - mom.get 1 / mom.get 0 ∧
    (chebyshev_mom 3 mom).get 1 1 = mom.get 2 / mom.get 0 := by
  refine ⟨?_, ?_, ?_⟩
  · simp [chebyshev_mom, chebyshev, forLoop, loopFrom, Mat.set, Mat.setRow, Mat.Zero]
  · simp [chebyshev_mom, chebyshev, forLoop, loopFrom, Mat.set, Mat.setRow, Mat.Zero]
  · simp [chebyshev_mom, chebyshev, forLoop, loopFrom, Mat.set, Mat.setRow, Mat.Zero]

/-- The three-point rule `log_nw(3)` is not exact for `x²`, even for exact library
functions and the ideal eigen-solver: `Σ wᵢ·xᵢ² = 25/144`, while the moment is `1/9`. -/
theorem log_nw_three_second_moment :
    ∃ nw : Mat ℝ, log_nw realScalar spectralSolve 3 = some nw ∧
      Finset.sum (Finset.range 3) (fun i => nw.get i 1 * nw.get i 0 ^ 2) = 25 / 144 ∧
      (mom_jaclog realScalar 3).get 2 = 1 / 9 := by
  obtain ⟨nw, J, hnw, hJ, _, _, hx, hw⟩ :=
    log_nw_exact_rows realScalar spectralSolve 3 (by decide)
      (SqrtExact.sqrt_one realScalar realScalar_sqrtExact)
      (spectralSolve_exact_jacobi 3 (by decide))
  obtain ⟨J2, hJ2, _, _, hget⟩ := log_nw_jacobi_exists realScalar 3 (by decide)
  have hJJ : J2 = J := by
    rw [hJ] at hJ2
    exact (Option.some.inj hJ2).symm
  subst hJJ
  have m0 : (mom_jaclog realScalar 3).get 0 = 1 := by
    rw [mom_jaclog_closed realScalar realScalar_gammaExact realScalar_digammaExact 3 0
      (by decide)]; norm_num
  have m1 : (mom_jaclog realScalar 3).get 1 = 1 / 4 := by
    rw [mom_jaclog_closed realScalar realScalar_gammaExact realScalar_digammaExact 3 1
      (by decide)]; norm_num
  have m2 : (mom_jaclog realScalar 3).get 2 = 1 / 9 := by
    rw [mom_jaclog_closed realScalar realScalar_gammaExact realScalar_digammaExact 3 2
      (by decide)]; norm_num
  obtain ⟨c00, _, c11⟩ := chebyshev_mom_three (mom_jaclog realScalar 3)
  rw [m0, m1] at c00
  rw [m0, m2] at c11
  have j00 : J2.get 0 0 = 1 / 4 := by
    rw [hget 0 0, if_pos rfl, if_pos (by decide), c00]; norm_num
  have j10 : J2.get 1 0 = realScalar.sqrt (1 / 9) := by
    rw [hget 1 0, if_neg (by decide), if_pos (by decide), c11]; norm_num
  have j01 : J2.get 0 1 = realScalar.sqrt (1 / 9) := by
    rw [hget 0 1, if_neg (by decide), if_neg (by decide), if_pos (by decide), c11]; norm_num
  have j02 : J2.get 0 2 = 0 := by
    rw [hget 0 2, if_neg (by decide), if_neg (by decide), if_neg (by decide)]
  have hs : realScalar.sqrt (1 / 9) * realScalar.sqrt (1 / 9) = 1 / 9 :=
    (realScalar_sqrtExact (1 / 9) (by norm_num)).2
  have hE := spectralSolve_exact_jacobi 3 (by decide) J2 hJ
  refine ⟨nw, hnw, ?_, m2⟩
  have hsum : Finset.sum (Finset.range 3) (fun i => nw.get i 1 * nw.get i 0 ^ 2)
      = ((J2.toMatrix 3) ^ 2) ⟨0, by decide⟩ ⟨0, by decide⟩ := by
    rw [← power_sum_eq_pow_entry 3 (by decide) J2 (spectralSolve J2) hE 2]
    apply Finset.sum_congr rfl
    intro i hi
    have hi3 : i < 3 := Finset.mem_range.mp hi
    rw [hw i hi3, hx i hi3]
  rw [hsum, pow_two, Matrix.mul_apply, Fin.sum_univ_three]
  simp only [Mat.toMatrix, Matrix.of_apply]
  show J2.get 0 0 * J2.get 0 0 + J2.get 0 1 * J2.get 1 0 + J2.get 0 2 * J2.get 2 0 = 25 / 144
  rw [j00, j01, j10, j02, hs]
  norm_num

/-! ## The loop of `chebyshev`: invariants -/

/-- The method `chebyshev` is its outer loop run on the initial pair. -/
theorem chebyshev_eq_loop {K : Type} [Field K] (n : Nat) (abm : Mat K) (mom : Vec K) :
    chebyshev n abm mom = (forLoop 2 (n + 1) (chebOuter n abm) (chebInit n abm mom)).2 := rfl

/-- Row 0 of the table `ab` is never overwritten by the outer loop. -/
theorem chebyshev_loop_row_zero {K : Type} [Field K] (n : Nat) (abm : Mat K) (mom : Vec K)
    (m : Nat) (hm : 2 ≤ m) (c : Nat) :
    (forLoop 2 m (chebOuter n abm) (chebInit n abm mom)).2.get 0 c
      = (chebInit n abm mom).2.get 0 c := by
  refine forLoop_invariant
    (fun _ (st : Mat K × Mat K) => st.2.get 0 c = (chebInit n abm mom).2.get 0 c)
    2 m _ _ hm rfl ?_
  intro i t hi _ ht
  show ((t.2.set (i - 1) 0 _).set (i - 1) 1 _).get 0 c = _
  rw [Mat.get_set, if_neg (by omega), Mat.get_set, if_neg (by omega), ht]

/-- First row of the table returned by `chebyshev`, for every `n ≥ 1`. -/
theorem chebyshev_first_row {K : Type} [Field K] (n : Nat) (hn : 1 ≤ n) (abm : Mat K)
    (mom : Vec K) :
    (chebyshev n abm mom).get 0 0 = abm.get 0 0 + mom.get 1 / mom.get 0 ∧
    (chebyshev n abm mom).get 0 1 = mom.get 0 := by
  rw [chebyshev_eq_loop]
  constructor
  · rw [chebyshev_loop_row_zero n abm mom (n + 1) (by omega) 0]
    simp [chebInit, Mat.set]
  · rw [chebyshev_loop_row_zero n abm mom (n + 1) (by omega) 1]
    simp [chebInit, Mat.set]

/-- While the inner loop of iteration `i` runs, every row below row `i` and the part of
row `i` not yet assigned hold zeros, provided the rows from `i` on were zero at its start. -/
theorem chebInner_loop_zero {K : Type} [Field K] (n : Nat) (abm ab : Mat K) (i : Nat)
    (sig : Mat K) (h0 : ∀ r c : Nat, i ≤ r → sig.get r c = 0) (k : Nat) (hk : i - 1 ≤ k) :
    ∀ r c : Nat, (i < r ∨ (r = i ∧ k ≤ c)) →
      (forLoop (i - 1) k (chebInner n abm ab i) sig).get r c = 0 := by
  refine forLoop_invariant
    (fun m (sg : Mat K) => ∀ r c : Nat, (i < r ∨ (r = i ∧ m ≤ c)) → sg.get r c = 0)
    (i - 1) k _ sig hk ?_ ?_
  · intro r c hrc
    exact h0 r c (by omega)
  · intro m t _ _ ht r c hrc
    show (t.set i m _).get r c = 0
    rw [Mat.get_set, if_neg (by omega)]
    exact ht r c (by omega)

/-- When outer iteration `m` starts, the rows `m, m+1, ...` of `sig` hold zeros. -/
theorem chebOuter_loop_zero {K : Type} [Field K] (n : Nat) (abm : Mat K) (mom : Vec K)
    (m : Nat) (h2 : 2 ≤ m) (hm : m ≤ n + 1) :
    ∀ r c : Nat, m ≤ r →
      (forLoop 2 m (chebOuter n abm) (chebInit n abm mom)).1.get r c = 0 := by
  refine forLoop_invariant
    (fun j (st : Mat K × Mat K) => ∀ r c : Nat, j ≤ r → st.1.get r c = 0)
    2 m _ _ h2 ?_ ?_
  · intro r c hr
    show ((Mat.Zero (n + 1) (2 * n) : Mat K).setRow 1 mom).get r c = 0
    rw [Mat.get_setRow, if_neg (by omega)]
    rfl
  · intro i t hi1 hi2 ht r c hr
    show (forLoop (i - 1) (2 * n - i + 1) (chebInner n abm t.2 i) t.1).get r c = 0
    exact chebInner_loop_zero n abm t.2 i t.1 (fun r c h => ht r c h) (2 * n - i + 1)
      (by omega) r c (Or.inl (by omega))

/-- C15: in every outer iteration `2 ≤ i < n` of `chebyshev` and for every `k` of the
band, the entry `sig(n-1,k)` that multiplies `α[i−2] − αref[k]` is still `0` when it is
read, so the assignment stores `σ[i−1][k+1] − β[i−2]·σ[i−2][k] + βref[k]·σ[i−1][k−1]`;
in the last iteration `i = n` the assignment is the one of the literature (band term
`σ[i−1][k]`); hence `chebyshev` and the recursion of the literature return the same table
for `n ≤ 2`. For `n = 3`, `i = 2`, `k = 1` and the moments `1/(k+1)²` the entry read is
`0` while `σ[i−1][k] = 1/4`. -/
theorem chebyshev_band_term {K : Type} [Field K] (n : Nat) (abm : Mat K) (mom : Vec K) :
    (∀ i k : Nat, 2 ≤ i → i < n → i - 1 ≤ k → k < 2 * n - i + 1 →
      (forLoop (i - 1) k
        (chebInner n abm (forLoop 2 i (chebOuter n abm) (chebInit n abm mom)).2 i)
        (forLoop 2 i (chebOuter n abm) (chebInit n abm mom)).1).get (n - 1) k = 0 ∧
      (chebInner n abm (forLoop 2 i (chebOuter n abm) (chebInit n abm mom)).2 i k
        (forLoop (i - 1) k
          (chebInner n abm (forLoop 2 i (chebOuter n abm) (chebInit n abm mom)).2 i)
          (forLoop 2 i (chebOuter n abm) (chebInit n abm mom)).1)).get i k
        = (forLoop (i - 1) k
            (chebInner n abm (forLoop 2 i (chebOuter n abm) (chebInit n abm mom)).2 i)
            (forLoop 2 i (chebOuter n abm) (chebInit n abm mom)).1).get (i - 1) (k + 1)
          - (forLoop 2 i (chebOuter n abm) (chebInit n abm mom)).2.get (i - 2) 1
            * (forLoop (i - 1) k
                (chebInner n abm (forLoop 2 i (chebOuter n abm) (chebInit n abm mom)).2 i)
                (forLoop 2 i (chebOuter n abm) (chebInit n abm mom)).1).get (i - 2) k
          + abm.get k 1
            * (forLoop (i - 1) k
                (chebInner n abm (forLoop 2 i (chebOuter n abm) (chebInit n abm mom)).2 i)
                (forLoop 2 i (chebOuter n abm) (chebInit n abm mom)).1).get (i - 1) (k - 1)) ∧
    (∀ (ab sig : Mat K) (k : Nat),
      chebInner n abm ab n k sig = chebInnerTextbook abm ab n k sig) ∧
    (n ≤ 2 → chebyshev n abm mom = chebyshevTextbook n abm mom) ∧
    ((forLoop (2 - 1) 1
        (chebInner 3 (Mat.Zero (2 * 3 - 1) 2)
          (forLoop 2 2 (chebOuter 3 (Mat.Zero (2 * 3 - 1) 2))
            (chebInit 3 (Mat.Zero (2 * 3 - 1) 2) logMoments6)).2 2)
        (forLoop 2 2 (chebOuter 3 (Mat.Zero (2 * 3 - 1) 2))
          (chebInit 3 (Mat.Zero (2 * 3 - 1) 2) logMoments6)).1).get (3 - 1) 1 = 0 ∧
     (forLoop (2 - 1) 1
        (chebInner 3 (Mat.Zero (2 * 3 - 1) 2)
          (forLoop 2 2 (chebOuter 3 (Mat.Zero (2 * 3 - 1) 2))
            (chebInit 3 (Mat.Zero (2 * 3 - 1) 2) logMoments6)).2 2)
        (forLoop 2 2 (chebOuter 3 (Mat.Zero (2 * 3 - 1) 2))
          (chebInit 3 (Mat.Zero (2 * 3 - 1) 2) logMoments6)).1).get (2 - 1) 1 = 1 / 4) := by
  refine ⟨?_, ?_, ?_, ?_, ?_⟩
  · intro i k h2 hin hk1 hk2
    have hz : (forLoop (i - 1) k
        (chebInner n abm (forLoop 2 i (chebOuter n abm) (chebInit n abm mom)).2 i)
        (forLoop 2 i (chebOuter n abm) (chebInit n abm mom)).1).get (n - 1) k = 0 :=
      chebInner_loop_zero n abm _ i _
        (chebOuter_loop_zero n abm mom i h2 (by omega)) k hk1 (n - 1) k (by omega)
    refine ⟨hz, ?_⟩
    show (Mat.set _ i k _).get i k = _
    rw [Mat.get_set, if_pos ⟨rfl, rfl⟩, hz]
    ring
  · intro ab sig k
    rfl
  · intro hn
    interval_cases n <;> rfl
  · simp [forLoop, loopFrom, chebInit, Mat.setRow, Mat.Zero]
  · simp [forLoop, loopFrom, chebInit, Mat.setRow, Mat.Zero, logMoments6]
    norm_num

/-- Witness for C15: `n = 3`, outer iteration `i = 2`, band index `k = 1`, on the moments
`1/(k+1)²`. -/
theorem chebyshev_band_term_witness :
    (2 ≤ 2 ∧ 2 < 3 ∧ 2 - 1 ≤ 1 ∧ 1 < 2 * 3 - 2 + 1) ∧
    (forLoop (2 - 1) 1
      (chebInner 3 (Mat.Zero (2 * 3 - 1) 2)
        (forLoop 2 2 (chebOuter 3 (Mat.Zero (2 * 3 - 1) 2))
          (chebInit 3 (Mat.Zero (2 * 3 - 1) 2) logMoments6)).2 2)
      (forLoop 2 2 (chebOuter 3 (Mat.Zero (2 * 3 - 1) 2))
        (chebInit 3 (Mat.Zero (2 * 3 - 1) 2) logMoments6)).1).get (3 - 1) 1 = 0 :=
  ⟨⟨by decide, by decide, by decide, by decide⟩,
    ((chebyshev_band_term 3 (Mat.Zero (2 * 3 - 1) 2) logMoments6).1 2 1
      (by decide) (by decide) (by decide) (by decide)).1⟩

/-! ## Size assertions, the general Jacobi table, frame conditions -/

/-- C12: `tridiagCoeffs(coeffs, n)` rejects its input, by one of the two size assertions
that open its body, if and only if the table does not have exactly `n` rows and exactly
2 columns. -/
theorem tridiagCoeffs_rejects_iff {K : Type} [Field K] (S : Scalar K) (coeffs : Mat K)
    (n : Nat) :
    tridiagCoeffs S coeffs n = none ↔ ¬ (coeffs.rows = n ∧ coeffs.cols = 2) := by
  unfold tridiagCoeffs
  by_cases hr : coeffs.rows = n
  · by_cases hc : coeffs.cols = 2
    · simp [hr, hc]
    · simp [hr, hc]
  · simp [hr]

/-- C14: for every `n ≥ 1` and all `a`, `b`, `c_jacobi(n, a, b)` is the `n×2` table with
`α₀ = (b−a)/(a+b+2)`, `β₀ = 2^(a+b+1)·Γ(a+1)Γ(b+1)/Γ(a+b+2)`,
`αᵢ = (b²−a²)/(nᵢ(nᵢ+2))` for `1 ≤ i < n` with `nᵢ = 2i+a+b`,
`β₁ = 4(a+1)(b+1)/((a+b+2)²(a+b+3))` and
`βᵢ = 4·i·(i+b)·(i+a)·(i+a+b)/(nᵢ²(nᵢ−1)(nᵢ+1))` for `2 ≤ i < n`. -/
theorem c_jacobi_spec {K : Type} [LinearOrderedField K] (S : Scalar K) (n : Nat) (a b : K)
    (hn : 1 ≤ n) :
    (c_jacobi S n a b).rows = n ∧ (c_jacobi S n a b).cols = 2 ∧
    (c_jacobi S n a b).get 0 0 = (b - a) / (a + b + 2) ∧
    (c_jacobi S n a b).get 0 1 =
      S.pow 2 (a + b + 1) * (S.tgamma (a + 1) * S.tgamma (b + 1) / S.tgamma (a + b + 2)) ∧
    (∀ i : Nat, 1 ≤ i → i < n → (c_jacobi S n a b).get i 0 =
      (b ^ 2 - a ^ 2) / ((2 * (i : K) + a + b) * (2 * (i : K) + a + b + 2))) ∧
    (1 < n → (c_jacobi S n a b).get 1 1 =
      4 * (a + 1) * (b + 1) / ((a + b + 2) ^ 2 * (a + b + 3))) ∧
    (∀ i : Nat, 2 ≤ i → i < n → (c_jacobi S n a b).get i 1 =
      4 * (i : K) * ((i : K) + b) * ((i : K) + a) * ((i : K) + a + b)
        / ((2 * (i : K) + a + b) ^ 2 * (2 * (i : K) + a + b - 1)
          * (2 * (i : K) + a + b + 1))) := by
  by_cases h1 : n = 1
  · subst h1
    refine ⟨rfl, rfl, ?_, ?_, ?_, ?_, ?_⟩
    · simp [c_jacobi, Mat.set, Mat.Zero]
    · simp [c_jacobi, Mat.set, Mat.Zero]
    · intro i h1 hi; omega
    · intro h; omega
    · intro i h1 hi; omega
  · obtain ⟨hr, hc, hα, hα0, hβ0, hβ1, hβ⟩ := c_jacobi_get S n a b (by omega)
    refine ⟨hr, hc, hα0, hβ0, ?_, fun _ => hβ1, ?_⟩
    · intro i h1 hi
      rw [hα i h1 hi]
      ring_nf
    · intro i h2 hi
      rw [hβ i h2 hi]
      ring_nf

/-- Witness for C14: `c_jacobi(3, 1, 2)` over the rationals. -/
theorem c_jacobi_spec_witness :
    1 ≤ 3 ∧ (c_jacobi ratScalar 3 1 2).rows = 3 ∧
    (c_jacobi ratScalar 3 1 2).get 0 0 = ((2 : ℚ) - 1) / (1 + 2 + 2) :=
  ⟨by decide, (c_jacobi_spec ratScalar 3 1 2 (by decide)).1,
    (c_jacobi_spec ratScalar 3 1 2 (by decide)).2.2.1⟩

/-- The method `log_nw(n)` returns a table for every `n ≥ 1`. -/
theorem log_nw_returns {K : Type} [LinearOrderedField K] (S : Scalar K)
    (solve : Mat K → EigenResult K) (n : Nat) (hn : 1 ≤ n) :
    ∃ nw : Mat K, log_nw S solve n = some nw ∧ nw.rows = n ∧ nw.cols = 2 := by
  obtain ⟨J, hJ, _⟩ := log_nw_jacobi_exists S n hn
  obtain ⟨nw, hnw, hr, hc, _, _⟩ := log_nw_get S solve n J hJ
  exact ⟨nw, hnw, hr, hc⟩

/-- C13: neither `log_nw(n)` nor `operator()(f)` changes the data members `nodes`,
`weights`, `degree` of the object: whenever a call returns, the object is as before, and
for `n ≥ 1` the calls do return; the value of `operator()(f)` is the one computed from
`log_nw(degree)` and depends on the object through `degree` only. -/
theorem calls_preserve_object {K : Type} [LinearOrderedField K] (self : GaussLogRule K)
    (S : Scalar K) (solve : Mat K → EigenResult K) (n : Nat) (f : K → K) :
    (∀ (nw : Mat K) (after : GaussLogRule K),
      self.run_log_nw S solve n = some (nw, after) →
        after.nodes = self.nodes ∧ after.weights = self.weights ∧ after.degree = self.degree) ∧
    (∀ (q : K) (after : GaussLogRule K),
      self.run_call S solve f = some (q, after) →
        after.nodes = self.nodes ∧ after.weights = self.weights ∧ after.degree = self.degree) ∧
    (1 ≤ n → ∃ nw : Mat K, self.run_log_nw S solve n = some (nw, self) ∧
      log_nw S solve n = some nw) ∧
    (1 ≤ self.degree → ∃ q : K, self.run_call S solve f = some (q, self) ∧
      self.call S solve f = some q) ∧
    (∀ other : GaussLogRule K, other.degree = self.degree →
      other.call S solve f = self.call S solve f) := by
  refine ⟨?_, ?_, ?_, ?_, ?_⟩
  · intro nw after h
    unfold GaussLogRule.run_log_nw at h
    cases hl : log_nw S solve n with
    | none => rw [hl] at h; exact absurd h (by simp)
    | some nw2 =>
      rw [hl] at h
      have := (Prod.mk.inj (Option.some.inj h)).2
      rw [← this]
      exact ⟨rfl, rfl, rfl⟩
  · intro q after h
    unfold GaussLogRule.run_call GaussLogRule.run_log_nw at h
    cases hl : log_nw S solve self.degree with
    | none => rw [hl] at h; exact absurd h (by simp)
    | some nw2 =>
      rw [hl] at h
      have := (Prod.mk.inj (Option.some.inj h)).2
      rw [← this]
      exact ⟨rfl, rfl, rfl⟩
  · intro hn
    obtain ⟨nw, hnw, _, _⟩ := log_nw_returns S solve n hn
    refine ⟨nw, ?_, hnw⟩
    unfold GaussLogRule.run_log_nw
    rw [hnw]
  · intro hd
    obtain ⟨nw, hnw, _, _⟩ := log_nw_returns S solve self.degree hd
    refine ⟨forLoop 0 (nw.col 0).size (fun i quad => quad + nw.get i 1 * f (nw.get i 0 - 1)) 0,
      ?_, ?_⟩
    · unfold GaussLogRule.run_call GaussLogRule.run_log_nw
      rw [hnw]
    · unfold GaussLogRule.call
      rw [hnw]
  · intro other hd
    unfold GaussLogRule.call
    rw [hd]

/-- Witness for C13: an object of degree 2 that already holds stale vectors. -/
theorem calls_preserve_object_witness :
    1 ≤ (GaussLogRule.mk [1, 2] [3] 2 : GaussLogRule ℚ).degree ∧
    ∃ q : ℚ, (GaussLogRule.mk [1, 2] [3] 2 : GaussLogRule ℚ).run_call ratScalar unitSolve
        (fun x => x) = some (q, GaussLogRule.mk [1, 2] [3] 2) ∧
      (GaussLogRule.mk [1, 2] [3] 2 : GaussLogRule ℚ).call ratScalar unitSolve (fun x => x)
        = some q :=
  ⟨by decide, (calls_preserve_object (GaussLogRule.mk [1, 2] [3] 2) ratScalar unitSolve 2
    (fun x => x)).2.2.2.1 (by decide)⟩

/-! ## Modified moments -/

/-- C20: for every `n`, `mmom(n)` has length `n` (not `2n`), its entry 0 is `1` and every
entry `i ≥ 1` is `0`, because `1/(i+1)` is an integer division; the vector is not the
sequence `1/(i+1)`. -/
theorem mmom_spec {K : Type} [LinearOrderedField K] (n : Nat) :
    (mmom n : Vec K).size = n ∧
    (0 < n → (mmom n : Vec K).get 0 = 1) ∧
    (∀ i : Nat, 1 ≤ i → i < n → (mmom n : Vec K).get i = 0) ∧
    (∀ i : Nat, 1 ≤ i → i < n → (mmom n : Vec K).get i ≠ 1 / ((i : K) + 1)) ∧
    (1 ≤ n → (mmom n : Vec K).size ≠ 2 * n) := by
  obtain ⟨hs, hg⟩ := forLoop_set_vec 0
    (fun i : Nat => ((Int.tdiv 1 ((i : Int) + 1) : Int) : K)) (Vec.Zero n) n (Nat.zero_le _)
  have hzero : ∀ i : Nat, 1 ≤ i → i < n → (mmom n : Vec K).get i = 0 := by
    intro i h1 hi
    unfold mmom
    rw [hg i, if_pos ⟨Nat.zero_le _, hi⟩]
    have : Int.tdiv 1 ((i : Int) + 1) = 0 := by
      apply Int.tdiv_eq_zero_of_lt <;> omega
    rw [this]
    simp
  refine ⟨hs, ?_, hzero, ?_, ?_⟩
  · intro h0
    unfold mmom
    rw [hg 0, if_pos ⟨Nat.zero_le _, h0⟩]
    have : Int.tdiv 1 (((0 : Nat) : Int) + 1) = 1 := by decide
    rw [this]
    simp
  · intro i h1 hi
    rw [hzero i h1 hi]
    have : (0 : K) < 1 / ((i : K) + 1) := by positivity
    exact ne_of_lt this
  · intro h2
    have : (mmom n : Vec K).size = n := hs
    rw [this]
    omega

/-- Witness for C20: `mmom(3)` over the rationals is `(1, 0, 0)`. -/
theorem mmom_spec_witness :
    (0 < 3 ∧ 1 ≤ 2 ∧ 2 < 3) ∧ (mmom 3 : Vec ℚ).size = 3 ∧ (mmom 3 : Vec ℚ).get 0 = 1 ∧
    (mmom 3 : Vec ℚ).get 2 = 0 ∧ (mmom 3 : Vec ℚ).get 2 ≠ 1 / (((2 : Nat) : ℚ) + 1) :=
  ⟨⟨by decide, by decide, by decide⟩, (mmom_spec 3).1, (mmom_spec 3).2.1 (by decide),
    (mmom_spec 3).2.2.1 2 (by decide) (by decide),
    (mmom_spec 3).2.2.2.1 2 (by decide) (by decide)⟩

/-- Size and entries of `mmom_jaclog(n)`, as the source computes them. -/
theorem mmom_jaclog_get {K : Type} [Field K] (S : Scalar K) (n : Nat) (hn : 1 ≤ n) :
    (mmom_jaclog S n).size = 2 * n ∧
    (mmom_jaclog S n).get 0
      = S.tgamma 1 * S.tgamma 1 * (S.digamma 2 - S.digamma 1) / S.tgamma 2 ∧
    ∀ i : Nat, 1 ≤ i → i < 2 * n → (mmom_jaclog S n).get i
      = (-1) ^ i * S.tgamma (i : K) * S.tgamma ((i : K) + 1) * S.tgamma 1
        / (((i : K) + 1) * S.tgamma ((i : K) + 1 + 1)) := by
  have key := forLoop_invariant
    (fun m (st : Vec K × Int) => st.2 = (-1) ^ (m - 1) ∧ st.1.size = 2 * n ∧
      ∀ a : Nat, st.1.get a =
        if 1 ≤ a ∧ a < m then
          (-1) ^ a * S.tgamma (a : K) * S.tgamma ((a : K) + 1) * S.tgamma 1
            / (((a : K) + 1) * S.tgamma ((a : K) + 1 + 1))
        else ((Vec.Zero (2 * n) : Vec K).set 0
          (S.tgamma 1 * S.tgamma 1 * (S.digamma 2 - S.digamma 1) / S.tgamma 2)).get a)
    1 (2 * n)
    (fun i (st : Vec K × Int) =>
      (st.1.set i (((st.2 * (-1) : Int) : K) * S.tgamma ((((i : Int) + 1) - 1 : Int) : K)
        * S.tgamma ((((i : Int) + 1 : Int)) : K) * S.tgamma 1
        / (((((i : Int) + 1 : Int)) : K) * S.tgamma (((((i : Int) + 1) + 1 : Int)) : K))),
        st.2 * (-1)))
    ((Vec.Zero (2 * n) : Vec K).set 0
      (S.tgamma 1 * S.tgamma 1 * (S.digamma 2 - S.digamma 1) / S.tgamma 2), (1 : Int))
    (by omega)
    ⟨by simp, rfl, fun a => by rw [if_neg (by omega)]⟩
    (by
      intro i t hi1 _ ⟨hsgn, hsize, hget⟩
      refine ⟨?_, hsize, ?_⟩
      · show t.2 * (-1) = (-1) ^ (i + 1 - 1)
        rw [hsgn]
        have : i + 1 - 1 = (i - 1) + 1 := by omega
        rw [this, pow_succ]
      · intro a
        show (Vec.set t.1 i _).get a = _
        simp only [Vec.set]
        by_cases e : a = i
        · subst e
          rw [if_pos rfl, if_pos (by omega), hsgn]
          have hp : ((-1 : Int) ^ (a - 1) * (-1)) = (-1) ^ a := by
            have : a = (a - 1) + 1 := by omega
            conv_rhs => rw [this, pow_succ]
          rw [hp]
          push_cast
          simp only [add_sub_cancel_right]
        · rw [if_neg e, hget a]
          by_cases q : 1 ≤ a ∧ a < i
          · rw [if_pos q, if_pos (by omega)]
          · rw [if_neg q, if_neg (by omega)]
            rfl)
  obtain ⟨_, hsize, hget⟩ := key
  refine ⟨hsize, ?_, ?_⟩
  · have := hget 0
    rw [if_neg (by omega)] at this
    exact this
  · intro i h1 hi
    have := hget i
    rw [if_pos ⟨h1, hi⟩] at this
    exact this

/-- Closed form of the entries of `mmom_jaclog(n)` from index 1 on, for an exact `Γ`. -/
theorem mmom_jaclog_closed {K : Type} [LinearOrderedField K] (S : Scalar K)
    (hG : GammaExact S) (n : Nat) (hn : 1 ≤ n) (i : Nat) (h1 : 1 ≤ i) (hi : i < 2 * n) :
    (mmom_jaclog S n).get i = (-1) ^ i * (((i - 1).factorial : Nat) : K) / ((i : K) + 1) ^ 2 := by
  rw [(mmom_jaclog_get S n hn).2.2 i h1 hi]
  have g1 : S.tgamma 1 = 1 := by
    have := hG 0
    simpa using this
  have gi : S.tgamma (i : K) = (((i - 1).factorial : Nat) : K) := by
    have := hG (i - 1)
    have e : (((i - 1 : Nat)) : K) + 1 = (i : K) := by
      rw [Nat.cast_sub h1]; simp
    rw [e] at this
    exact this
  have gi1 : S.tgamma ((i : K) + 1) = ((i.factorial : Nat) : K) := hG i
  have gi2 : S.tgamma ((i : K) + 1 + 1) = (((i + 1).factorial : Nat) : K) := by
    have := hG (i + 1)
    push_cast at this ⊢
    exact this
  rw [g1, gi, gi1, gi2, Nat.factorial_succ]
  have hk0 : ((i : K) + 1) ≠ 0 := by positivity
  have hf : ((i.factorial : Nat) : K) ≠ 0 := by exact_mod_cast Nat.factorial_ne_zero i
  push_cast
  field_simp
  ring

/-- C19: for every `n ≥ 1`, `mmom_jaclog(n)` has length `2n`, entry 0 equal to `1`, and
for `1 ≤ i < 2n` entry `i` equal to `(−1)^i·Γ(i)Γ(i+1)Γ(1)/((i+1)·Γ(i+2))
= (−1)^i·(i−1)!/(i+1)²`; from index 1 on the entries are non-zero and alternate in sign,
negative at odd `i` and positive at even `i`. -/
theorem mmom_jaclog_spec {K : Type} [LinearOrderedField K] (S : Scalar K)
    (hG : GammaExact S) (hD : DigammaExact S) (n : Nat) (hn : 1 ≤ n) :
    (mmom_jaclog S n).size = 2 * n ∧
    (mmom_jaclog S n).get 0 = 1 ∧
    ∀ i : Nat, 1 ≤ i → i < 2 * n →
      (mmom_jaclog S n).get i
        = (-1) ^ i * S.tgamma (i : K) * S.tgamma ((i : K) + 1) * S.tgamma 1
          / (((i : K) + 1) * S.tgamma ((i : K) + 1 + 1)) ∧
      (mmom_jaclog S n).get i = (-1) ^ i * (((i - 1).factorial : Nat) : K) / ((i : K) + 1) ^ 2 ∧
      (mmom_jaclog S n).get i ≠ 0 ∧
      (Odd i → (mmom_jaclog S n).get i < 0) ∧
      (Even i → 0 < (mmom_jaclog S n).get i) ∧
      (i + 1 < 2 * n → (mmom_jaclog S n).get i * (mmom_jaclog S n).get (i + 1) < 0) := by
  have hpos : ∀ j : Nat, (0 : K) < (((j - 1).factorial : Nat) : K) / ((j : K) + 1) ^ 2 := by
    intro j
    have : (0 : K) < (((j - 1).factorial : Nat) : K) := by
      exact_mod_cast Nat.factorial_pos (j - 1)
    positivity
  have hodd : ∀ j : Nat, 1 ≤ j → j < 2 * n → Odd j → (mmom_jaclog S n).get j < 0 := by
    intro j h1 hj ho
    rw [mmom_jaclog_closed S hG n hn j h1 hj, ho.neg_one_pow, mul_div_assoc]
    have := hpos j
    linarith
  have heven : ∀ j : Nat, 1 ≤ j → j < 2 * n → Even j → 0 < (mmom_jaclog S n).get j := by
    intro j h1 hj he
    rw [mmom_jaclog_closed S hG n hn j h1 hj, he.neg_one_pow, mul_div_assoc, one_mul]
    exact hpos j
  refine ⟨(mmom_jaclog_get S n hn).1, ?_, ?_⟩
  · rw [(mmom_jaclog_get S n hn).2.1]
    have g1 : S.tgamma 1 = 1 := by
      have := hG 0
      simpa using this
    have g2 : S.tgamma 2 = 1 := by
      have := hG 1
      norm_num at this
      exact this
    have d : S.digamma 2 - S.digamma 1 = 1 := by
      have := hD 0
      norm_num at this
      exact this
    rw [g1, g2, d]
    norm_num
  · intro i h1 hi
    refine ⟨(mmom_jaclog_get S n hn).2.2 i h1 hi, mmom_jaclog_closed S hG n hn i h1 hi,
      ?_, hodd i h1 hi, heven i h1 hi, ?_⟩
    · rcases Nat.even_or_odd i with he | ho
      · exact ne_of_gt (heven i h1 hi he)
      · exact ne_of_lt (hodd i h1 hi ho)
    · intro hi1
      rcases Nat.even_or_odd i with he | ho
      · exact mul_neg_of_pos_of_neg (heven i h1 hi he)
          (hodd (i + 1) (by omega) hi1 (Even.add_one he))
      · exact mul_neg_of_neg_of_pos (hodd i h1 hi ho)
          (heven (i + 1) (by omega) hi1 (Odd.add_one ho))

/-- Witness for C19: `mmom_jaclog(1)` over the rationals is `(1, −1/4)`. -/
theorem mmom_jaclog_spec_witness :
    (GammaExact ratScalar ∧ DigammaExact ratScalar ∧ 1 ≤ 1) ∧
    (mmom_jaclog ratScalar 1).size = 2 * 1 ∧ (mmom_jaclog ratScalar 1).get 0 = 1 ∧
    (mmom_jaclog ratScalar 1).get 1
      = (-1) ^ 1 * (((1 - 1).factorial : Nat) : ℚ) / (((1 : Nat) : ℚ) + 1) ^ 2 :=
  ⟨⟨ratScalar_gammaExact, ratScalar_digammaExact, le_refl _⟩,
    (mmom_jaclog_spec ratScalar ratScalar_gammaExact ratScalar_digammaExact 1 (le_refl _)).1,
    (mmom_jaclog_spec ratScalar ratScalar_gammaExact ratScalar_digammaExact 1 (le_refl _)).2.1,
    ((mmom_jaclog_spec ratScalar ratScalar_gammaExact ratScalar_digammaExact 1
      (le_refl _)).2.2 1 (le_refl _) (by decide)).2.1⟩

/-! ## Every access of `chebyshev` is in bounds -/

theorem Mat.getC_some {K : Type} (M : Mat K) (a b : Nat) (i j : Int) (hi : i = a) (hj : j = b)
    (ha : a < M.rows) (hb : b < M.cols) : M.getC i j = some (M.get a b) := by
  subst hi hj
  unfold Mat.getC
  rw [if_pos ⟨by omega, by omega, by omega, by omega⟩]
  simp

theorem Mat.setC_some {K : Type} (M : Mat K) (a b : Nat) (i j : Int) (v : K) (hi : i = a)
    (hj : j = b) (ha : a < M.rows) (hb : b < M.cols) : M.setC i j v = some (M.set a b v) := by
  subst hi hj
  unfold Mat.setC
  rw [if_pos ⟨by omega, by omega, by omega, by omega⟩]
  simp

theorem Vec.getC_of_lt {K : Type} (x : Vec K) (a : Nat) (i : Int) (hi : i = a)
    (ha : a < x.size) : x.getC i = some (x.get a) := by
  subst hi
  unfold Vec.getC
  rw [if_pos ⟨by omega, by omega⟩]
  simp

/-- A fallible loop whose body succeeds under an invariant runs to completion and
computes what the plain loop computes. -/
theorem loopFromM_eq {σ : Type} (P : Nat → σ → Prop) (bodyM : Nat → σ → Option σ)
    (body : Nat → σ → σ) (c : Nat) :
    ∀ (i : Nat) (s : σ), P i s →
      (∀ j t, i ≤ j → j < i + c → P j t → bodyM j t = some (body j t) ∧ P (j + 1) (body j t)) →
      loopFromM bodyM i c s = some (loopFrom body i c s) ∧ P (i + c) (loopFrom body i c s) := by
  induction c with
  | zero =>
    intro i s h0 _
    exact ⟨rfl, h0⟩
  | succ c ih =>
    intro i s h0 hstep
    obtain ⟨e, hP⟩ := hstep i s (le_refl i) (by omega) h0
    have := ih (i + 1) (body i s) hP (fun j t h1 h2 hp => hstep j t (by omega) (by omega) hp)
    have e2 : i + 1 + c = i + (c + 1) := by omega
    rw [e2] at this
    refine ⟨?_, this.2⟩
    show (bodyM i s).bind (loopFromM bodyM (i + 1) c) = some (loopFrom body (i + 1) c (body i s))
    rw [e]
    exact this.1

theorem forLoopM_eq {σ : Type} (P : Nat → σ → Prop) (lo hi : Nat)
    (bodyM : Nat → σ → Option σ) (body : Nat → σ → σ) (s : σ) (hle : lo ≤ hi) (h0 : P lo s)
    (hstep : ∀ j t, lo ≤ j → j < hi → P j t →
      bodyM j t = some (body j t) ∧ P (j + 1) (body j t)) :
    forLoopM lo hi bodyM s = some (forLoop lo hi body s) ∧ P hi (forLoop lo hi body s) := by
  have := loopFromM_eq P bodyM body (hi - lo) lo s h0
    (fun j t h1 h2 hp => hstep j t h1 (by omega) hp)
  have e : lo + (hi - lo) = hi := by omega
  rw [e] at this
  exact this

/-- In the band, the checked inner assignment succeeds and stores what `chebInner`
stores. -/
theorem chebInnerC_eq {K : Type} [Field K] (n : Nat) (abm ab sig : Mat K) (i k : Nat)
    (hi2 : 2 ≤ i) (hin : i ≤ n) (hk1 : i - 1 ≤ k) (hk2 : k < 2 * n - i + 1)
    (habm : 2 * n - 1 ≤ abm.rows) (habmc : abm.cols = 2)
    (habr : ab.rows = n) (habc : ab.cols = 2)
    (hsr : sig.rows = n + 1) (hsc : sig.cols = 2 * n) :
    chebInnerC n abm ab i k sig = some (chebInner n abm ab i k sig) := by
  unfold chebInnerC chebInner
  rw [Mat.getC_some sig (i - 1) (k + 1) _ _ (by omega) (by omega) (by omega) (by omega),
    Mat.getC_some ab (i - 2) 0 _ _ (by omega) (by omega) (by omega) (by omega),
    Mat.getC_some abm k 0 _ _ (by omega) (by omega) (by omega) (by omega),
    Mat.getC_some sig (n - 1) k _ _ (by omega) (by omega) (by omega) (by omega),
    Mat.getC_some ab (i - 2) 1 _ _ (by omega) (by omega) (by omega) (by omega),
    Mat.getC_some sig (i - 2) k _ _ (by omega) (by omega) (by omega) (by omega),
    Mat.getC_some abm k 1 _ _ (by omega) (by omega) (by omega) (by omega),
    Mat.getC_some sig (i - 1) (k - 1) _ _ (by omega) (by omega) (by omega) (by omega)]
  simp only [Option.bind_eq_bind, Option.some_bind]
  rw [Mat.setC_some sig i k _ _ _ (by omega) (by omega) (by omega) (by omega)]

/-- The checked inner loop of outer iteration `i` succeeds, computes what the plain inner
loop computes and keeps the dimensions of `sig`. -/
theorem chebInnerC_loop_eq {K : Type} [Field K] (n : Nat) (abm ab sig : Mat K) (i : Nat)
    (hi2 : 2 ≤ i) (hin : i ≤ n)
    (habm : 2 * n - 1 ≤ abm.rows) (habmc : abm.cols = 2)
    (habr : ab.rows = n) (habc : ab.cols = 2)
    (hsr : sig.rows = n + 1) (hsc : sig.cols = 2 * n) :
    forLoopM (i - 1) (2 * n - i + 1) (chebInnerC n abm ab i) sig
      = some (forLoop (i - 1) (2 * n - i + 1) (chebInner n abm ab i) sig) ∧
    (forLoop (i - 1) (2 * n - i + 1) (chebInner n abm ab i) sig).rows = n + 1 ∧
    (forLoop (i - 1) (2 * n - i + 1) (chebInner n abm ab i) sig).cols = 2 * n := by
  refine forLoopM_eq (fun _ (sg : Mat K) => sg.rows = n + 1 ∧ sg.cols = 2 * n)
    (i - 1) (2 * n - i + 1) _ _ sig (by omega) ⟨hsr, hsc⟩ ?_
  intro k t hk1 hk2 ⟨htr, htc⟩
  exact ⟨chebInnerC_eq n abm ab t i k hi2 hin hk1 hk2 habm habmc habr habc htr htc,
    htr, htc⟩

/-- A checked outer iteration succeeds, computes what `chebOuter` computes and keeps the
dimensions of `sig` and `ab`. -/
theorem chebOuterC_eq {K : Type} [Field K] (n : Nat) (abm : Mat K) (i : Nat)
    (st : Mat K × Mat K) (hi2 : 2 ≤ i) (hin : i ≤ n)
    (habm : 2 * n - 1 ≤ abm.rows) (habmc : abm.cols = 2)
    (habr : st.2.rows = n) (habc : st.2.cols = 2)
    (hsr : st.1.rows = n + 1) (hsc : st.1.cols = 2 * n) :
    chebOuterC n abm i st = some (chebOuter n abm i st) ∧
    (chebOuter n abm i st).2.rows = n ∧ (chebOuter n abm i st).2.cols = 2 ∧
    (chebOuter n abm i st).1.rows = n + 1 ∧ (chebOuter n abm i st).1.cols = 2 * n := by
  obtain ⟨hloop, hr, hc⟩ :=
    chebInnerC_loop_eq n abm st.2 st.1 i hi2 hin habm habmc habr habc hsr hsc
  refine ⟨?_, habr, habc, hr, hc⟩
  unfold chebOuterC chebOuter
  rw [hloop]
  simp only [Option.bind_eq_bind, Option.some_bind]
  generalize forLoop (i - 1) (2 * n - i + 1) (chebInner n abm st.2 i) st.1 = sg at hr hc
  rw [Mat.getC_some abm (i - 1) 0 _ _ (by omega) (by omega) (by omega) (by omega)]
  simp only [Option.some_bind]
  rw [Mat.getC_some sg i i _ _ (by omega) (by omega) (by omega) (by omega)]
  simp only [Option.some_bind]
  rw [Mat.getC_some sg i (i - 1) _ _ (by omega) (by omega) (by omega) (by omega)]
  simp only [Option.some_bind]
  rw [Mat.getC_some sg (i - 1) (i - 1) _ _ (by omega) (by omega) (by omega) (by omega)]
  simp only [Option.some_bind]
  rw [Mat.getC_some sg (i - 1) (i - 2) _ _ (by omega) (by omega) (by omega) (by omega)]
  simp only [Option.some_bind]
  rw [Mat.setC_some st.2 (i - 1) 0 _ _ _ (by omega) (by omega) (by omega) (by omega)]
  simp only [Option.some_bind]
  rw [Mat.setC_some (st.2.set (i - 1) 0 _) (i - 1) 1 _ _ _ (by omega) (by omega)
    (by rw [Mat.rows_set]; omega) (by rw [Mat.cols_set]; omega)]
  rfl

/-- With a moment vector of length `2n` and a reference table of at least `2n-1` rows and
2 columns, the checked run of `chebyshev` meets no out-of-bounds access and returns the
table of the plain run. -/
theorem chebyshevChecked_eq {K : Type} [Field K] (n : Nat) (hn : 1 ≤ n) (abm : Mat K)
    (mom : Vec K) (hmom : mom.size = 2 * n) (habm : 2 * n - 1 ≤ abm.rows)
    (habmc : abm.cols = 2) :
    chebyshevChecked n abm mom = some (chebyshev n abm mom) := by
  have hloop := forLoopM_eq
    (fun _ (st : Mat K × Mat K) => st.2.rows = n ∧ st.2.cols = 2 ∧
      st.1.rows = n + 1 ∧ st.1.cols = 2 * n)
    2 (n + 1) (chebOuterC n abm) (chebOuter n abm) (chebInit n abm mom) (by omega)
    ⟨rfl, rfl, rfl, rfl⟩
    (by
      intro i t hi1 hi2 ⟨h1, h2, h3, h4⟩
      exact chebOuterC_eq n abm i t hi1 (by omega) habm habmc h1 h2 h3 h4)
  rw [chebyshev_eq_loop]
  unfold chebyshevChecked
  rw [Mat.getC_some abm 0 0 _ _ (by omega) (by omega) (by omega) (by omega),
    Vec.getC_of_lt mom 1 _ (by omega) (by omega),
    Vec.getC_of_lt mom 0 _ (by omega) (by omega)]
  simp only [Option.bind_eq_bind, Option.some_bind]
  rw [Mat.setC_some (Mat.Zero n 2) 0 0 _ _ _ (by omega) (by omega)
    (by show 0 < n; omega) (by show 0 < 2; omega)]
  simp only [Option.some_bind]
  rw [Mat.setC_some ((Mat.Zero n 2 : Mat K).set 0 0 _) 0 1 _ _ _ (by omega) (by omega)
    (by show 0 < n; omega) (by show 1 < 2; omega)]
  simp only [Option.some_bind]
  have hrow : (Mat.Zero (n + 1) (2 * n) : Mat K).setRowC 1 mom
      = some ((Mat.Zero (n + 1) (2 * n) : Mat K).setRow 1 mom) := by
    unfold Mat.setRowC
    rw [if_pos ⟨by omega, by show (1 : Int) < ((n + 1 : Nat) : Int); omega, hmom⟩]
    rfl
  rw [hrow]
  simp only [Option.some_bind]
  have e := hloop.1
  unfold chebInit at e
  rw [e]
  rfl

/-- C16: for every `n ≥ 1`, every moment vector of length `2n` and every reference table
with at least `2n−1` rows and 2 columns, every element access of `chebyshev` is in
bounds: the run with checked accesses (`sig` of size `(n+1)×2n`, `ab` of size `n×2`,
`mom` of size `2n`) completes with the table of the plain run, also when the reference
table is cut to exactly `2n−1` rows. -/
theorem chebyshev_accesses_in_bounds {K : Type} [Field K] (n : Nat) (hn : 1 ≤ n)
    (abm : Mat K) (mom : Vec K) (hmom : mom.size = 2 * n) (habm : 2 * n - 1 ≤ abm.rows)
    (habmc : abm.cols = 2) :
    chebyshevChecked n abm mom = some (chebyshev n abm mom) ∧
    chebyshevChecked n { abm with rows := 2 * n - 1 } mom = some (chebyshev n abm mom) ∧
    chebyshevChecked n (Mat.Zero (2 * n - 1) 2) mom = some (chebyshev_mom n mom) :=
  ⟨chebyshevChecked_eq n hn abm mom hmom habm habmc,
    chebyshevChecked_eq n hn { abm with rows := 2 * n - 1 } mom hmom (le_refl _) habmc,
    chebyshevChecked_eq n hn (Mat.Zero (2 * n - 1) 2) mom hmom (le_refl _) rfl⟩

/-- Witness for C16: `n = 3`, the moments `1/(k+1)²` and the zero reference table. -/
theorem chebyshev_accesses_in_bounds_witness :
    (1 ≤ 3 ∧ logMoments6.size = 2 * 3 ∧ 2 * 3 - 1 ≤ (Mat.Zero 5 2 : Mat ℚ).rows ∧
      (Mat.Zero 5 2 : Mat ℚ).cols = 2) ∧
    chebyshevChecked 3 (Mat.Zero 5 2) logMoments6
      = some (chebyshev 3 (Mat.Zero 5 2) logMoments6) :=
  ⟨⟨by decide, rfl, by decide, rfl⟩,
    (chebyshev_accesses_in_bounds 3 (by decide) (Mat.Zero 5 2) logMoments6 rfl (by decide)
      rfl).1⟩

/-- The checked run does fail on a reference table that is one row short: for `n = 2`
the access `abm(2, 0)` needs a third row. -/
theorem chebyshevChecked_short_table :
    chebyshevChecked 2 (Mat.Zero 2 2) onesMoments4 = none := by
  simp [chebyshevChecked, chebOuterC, chebInnerC, forLoopM, loopFromM, Mat.getC, Mat.setC,
    Vec.getC, Mat.setRowC, Mat.Zero, Mat.set, Mat.setRow, onesMoments4]

/-- C11 (as stated, refuted): `chebyshev` returns a table although a denominator is zero.
For `n = 1` and `mom = (0, 1)` the denominator `mom[0]` is `0`; for `n = 2` and
`mom = (1, 1, 1, 1)` the denominator `σ[2][1]` is `0`. In both cases the run completes
and hands back an `n×2` table. -/
theorem chebyshev_zero_denominator_returns :
    (zeroFirstMoment.size = 2 * 1 ∧ zeroFirstMoment.get 0 = 0 ∧
      ∃ T : Mat ℚ, chebyshevChecked 1 (Mat.Zero (2 * 1 - 1) 2) zeroFirstMoment = some T ∧
        T = chebyshev_mom 1 zeroFirstMoment ∧ T.rows = 1 ∧ T.cols = 2) ∧
    (onesMoments4.size = 2 * 2 ∧
      (chebOuter 2 (Mat.Zero (2 * 2 - 1) 2) 2
        (chebInit 2 (Mat.Zero (2 * 2 - 1) 2) onesMoments4)).1.get 2 1 = 0 ∧
      ∃ T : Mat ℚ, chebyshevChecked 2 (Mat.Zero (2 * 2 - 1) 2) onesMoments4 = some T ∧
        T = chebyshev_mom 2 onesMoments4 ∧ T.rows = 2 ∧ T.cols = 2) := by
  refine ⟨⟨rfl, rfl, chebyshev_mom 1 zeroFirstMoment, ?_, rfl,
    (chebyshev_dims 1 _ _).1, (chebyshev_dims 1 _ _).2⟩,
    ⟨rfl, ?_, chebyshev_mom 2 onesMoments4, ?_, rfl,
    (chebyshev_dims 2 _ _).1, (chebyshev_dims 2 _ _).2⟩⟩
  · exact chebyshevChecked_eq 1 (le_refl _) _ zeroFirstMoment rfl (le_refl _) rfl
  · simp [chebOuter, chebInner, chebInit, forLoop, loopFrom, Mat.set, Mat.setRow, Mat.Zero,
      onesMoments4]
  · exact chebyshevChecked_eq 2 (by decide) _ onesMoments4 rfl (le_refl _) rfl

/-- C11 (amended): `chebyshev` checks no denominator. For every `n ≥ 1`, every moment
vector of length `2n` and every reference table with at least `2n−1` rows and 2 columns,
whatever the values of `mom[0]` and of the entries of `σ` (zero included), it performs
the divisions and returns an `n×2` table, whose `α₀` is the scalar quotient
`mom[1]/mom[0]` added to `abm(0,0)`. -/
theorem chebyshev_no_denominator_check {K : Type} [Field K] (n : Nat) (hn : 1 ≤ n)
    (abm : Mat K) (mom : Vec K) (hmom : mom.size = 2 * n) (habm : 2 * n - 1 ≤ abm.rows)
    (habmc : abm.cols = 2) :
    ∃ T : Mat K, chebyshevChecked n abm mom = some T ∧ T.rows = n ∧ T.cols = 2 ∧
      T.get 0 0 = abm.get 0 0 + mom.get 1 / mom.get 0 ∧ T.get 0 1 = mom.get 0 :=
  ⟨chebyshev n abm mom, chebyshevChecked_eq n hn abm mom hmom habm habmc,
    (chebyshev_dims n abm mom).1, (chebyshev_dims n abm mom).2,
    (chebyshev_first_row n hn abm mom).1, (chebyshev_first_row n hn abm mom).2⟩

/-- Witness for the amended C11: `n = 1` and the moment vector `(0, 1)`. -/
theorem chebyshev_no_denominator_check_witness :
    (1 ≤ 1 ∧ zeroFirstMoment.size = 2 * 1 ∧ 2 * 1 - 1 ≤ (Mat.Zero 1 2 : Mat ℚ).rows ∧
      (Mat.Zero 1 2 : Mat ℚ).cols = 2) ∧
    ∃ T : Mat ℚ, chebyshevChecked 1 (Mat.Zero 1 2) zeroFirstMoment = some T ∧ T.rows = 1 ∧
      T.cols = 2 ∧
      T.get 0 0 = (Mat.Zero 1 2 : Mat ℚ).get 0 0 + zeroFirstMoment.get 1 / zeroFirstMoment.get 0 ∧
      T.get 0 1 = zeroFirstMoment.get 0 :=
  ⟨⟨le_refl _, rfl, le_refl _, rfl⟩,
    chebyshev_no_denominator_check 1 (le_refl _) (Mat.Zero 1 2) zeroFirstMoment rfl (le_refl _)
      rfl⟩

/-! ## Simple eigenvalues of a Jacobi matrix -/

/-- A solution `w` of the eigenvector equations of a matrix that vanishes above the first
superdiagonal and has a non-zero first superdiagonal is zero as soon as `w 0 = 0`. -/
theorem jacobi_first_zero {K : Type} [Field K] (n : Nat) (J : Mat K) (w : Nat → K) (ev : K)
    (hup : ∀ m c : Nat, m + 2 ≤ c → J.get m c = 0)
    (hsup : ∀ m : Nat, m + 1 < n → J.get m (m + 1) ≠ 0)
    (heq : ∀ r : Nat, r < n → Finset.sum (Finset.range n) (fun k => J.get r k * w k) = ev * w r)
    (h0 : w 0 = 0) :
    ∀ m : Nat, ∀ k : Nat, k ≤ m → k < n → w k = 0 := by
  intro m
  induction m with
  | zero =>
    intro k hk _
    have : k = 0 := by omega
    rw [this]; exact h0
  | succ m ih =>
    intro k hk hkn
    by_cases hkm : k ≤ m
    · exact ih k hkm hkn
    · have hk1 : k = m + 1 := by omega
      subst hk1
      have hrow := heq m (by omega)
      rw [ih m (le_refl m) (by omega), mul_zero] at hrow
      rw [Finset.sum_eq_single (m + 1)] at hrow
      · rcases mul_eq_zero.mp hrow with h | h
        · exact absurd h (hsup m hkn)
        · exact h
      · intro c hc hne
        by_cases hcm : c ≤ m
        · rw [ih c hcm (Finset.mem_range.mp hc), mul_zero]
        · rw [hup m c (by omega), zero_mul]
      · intro hnot
        exact absurd (Finset.mem_range.mpr hkn) hnot

/-- The eigenvalues of an exact eigen-decomposition of such a matrix are pairwise
distinct. -/
theorem jacobi_simple_spectrum {K : Type} [Field K] (n : Nat) (J : Mat K)
    (hup : ∀ m c : Nat, m + 2 ≤ c → J.get m c = 0)
    (hsup : ∀ m : Nat, m + 1 < n → J.get m (m + 1) ≠ 0)
    (r : EigenResult K) (hE : ExactEigen n J r) (i j : Nat) (hi : i < n) (hj : j < n)
    (hij : i ≠ j) : r.eigenvalues.get i ≠ r.eigenvalues.get j := by
  obtain ⟨_, _, _, horth, heig⟩ := hE
  intro hev
  have hw : ∀ k : Nat, k < n →
      r.eigenvectors.get 0 j * r.eigenvectors.get k i
        - r.eigenvectors.get 0 i * r.eigenvectors.get k j = 0 := by
    intro k hk
    refine jacobi_first_zero n J
      (fun k => r.eigenvectors.get 0 j * r.eigenvectors.get k i
        - r.eigenvectors.get 0 i * r.eigenvectors.get k j)
      (r.eigenvalues.get i) hup hsup ?_ (by ring) k k (le_refl k) hk
    intro row hrow
    have e1 := heig row i hrow hi
    have e2 := heig row j hrow hj
    rw [← hev] at e2
    have : Finset.sum (Finset.range n) (fun k => J.get row k *
        (r.eigenvectors.get 0 j * r.eigenvectors.get k i
          - r.eigenvectors.get 0 i * r.eigenvectors.get k j))
        = r.eigenvectors.get 0 j
            * Finset.sum (Finset.range n) (fun k => J.get row k * r.eigenvectors.get k i)
          - r.eigenvectors.get 0 i
            * Finset.sum (Finset.range n) (fun k => J.get row k * r.eigenvectors.get k j) := by
      rw [Finset.mul_sum, Finset.mul_sum, ← Finset.sum_sub_distrib]
      apply Finset.sum_congr rfl
      intro k _
      ring
    rw [this, e1, e2]
    ring
  have hsum : Finset.sum (Finset.range n) (fun k =>
      (r.eigenvectors.get 0 j * r.eigenvectors.get k i
        - r.eigenvectors.get 0 i * r.eigenvectors.get k j) * r.eigenvectors.get k i) = 0 := by
    apply Finset.sum_eq_zero
    intro k hk
    rw [hw k (Finset.mem_range.mp hk), zero_mul]
  have hsplit : Finset.sum (Finset.range n) (fun k =>
      (r.eigenvectors.get 0 j * r.eigenvectors.get k i
        - r.eigenvectors.get 0 i * r.eigenvectors.get k j) * r.eigenvectors.get k i)
      = r.eigenvectors.get 0 j
          * Finset.sum (Finset.range n) (fun k => r.eigenvectors.get k i * r.eigenvectors.get k i)
        - r.eigenvectors.get 0 i
          * Finset.sum (Finset.range n)
              (fun k => r.eigenvectors.get k j * r.eigenvectors.get k i) := by
    rw [Finset.mul_sum, Finset.mul_sum, ← Finset.sum_sub_distrib]
    apply Finset.sum_congr rfl
    intro k _
    ring
  rw [hsplit, horth i i hi hi, horth j i hj hi, if_pos rfl,
    if_neg (fun h => hij h.symm)] at hsum
  have hV0 : r.eigenvectors.get 0 j = 0 := by
    have : r.eigenvectors.get 0 j * 1 - r.eigenvectors.get 0 i * 0 = r.eigenvectors.get 0 j := by
      ring
    rw [this] at hsum
    exact hsum
  have hvj : ∀ k : Nat, k < n → r.eigenvectors.get k j = 0 := by
    intro k hk
    exact jacobi_first_zero n J (fun k => r.eigenvectors.get k j) (r.eigenvalues.get j)
      hup hsup (fun row hrow => heig row j hrow hj) hV0 k k (le_refl k) hk
  have hnorm := horth j j hj hj
  rw [if_pos rfl] at hnorm
  have hz : Finset.sum (Finset.range n)
      (fun k => r.eigenvectors.get k j * r.eigenvectors.get k j) = 0 := by
    apply Finset.sum_eq_zero
    intro k hk
    rw [hvj k (Finset.mem_range.mp hk), zero_mul]
  rw [hz] at hnorm
  exact zero_ne_one hnorm

/-- The matrix returned by `tridiagCoeffs` is symmetric, vanishes above the first
superdiagonal, and its first superdiagonal holds `sqrt(βᵢ)`. -/
theorem tridiagCoeffs_shape {K : Type} [Field K] (S : Scalar K) (coeffs : Mat K) (n : Nat)
    (hn : 1 ≤ n) (hr : coeffs.rows = n) (hc : coeffs.cols = 2) :
    ∃ J : Mat K, tridiagCoeffs S coeffs n = some J ∧ J.rows = n ∧
      (∀ i j : Nat, J.get i j = J.get j i) ∧
      (∀ m c : Nat, m + 2 ≤ c → J.get m c = 0) ∧
      (∀ m : Nat, m + 1 < n → J.get m (m + 1) = S.sqrt (coeffs.get (m + 1) 1)) := by
  obtain ⟨J, hJ, hrows, _, hget⟩ := tridiagCoeffs_entries S coeffs n hn hr hc
  refine ⟨J, hJ, hrows, ?_, ?_, ?_⟩
  · intro i j
    rw [hget i j, hget j i]
    by_cases hij : i = j
    · subst hij; rfl
    · have hji : ¬ j = i := fun h => hij h.symm
      by_cases h1 : i = j + 1 ∧ i < n
      · have h2 : ¬ (j = i + 1 ∧ j < n) := by omega
        simp only [if_neg hij, if_neg hji, if_pos h1, if_neg h2]
      · by_cases h2 : j = i + 1 ∧ j < n
        · simp only [if_neg hij, if_neg hji, if_neg h1, if_pos h2]
        · simp only [if_neg hij, if_neg hji, if_neg h1, if_neg h2]
  · intro m c hmc
    rw [hget m c, if_neg (by omega), if_neg (by omega), if_neg (by omega)]
  · intro m hm
    rw [hget m (m + 1), if_neg (by omega), if_neg (by omega), if_pos ⟨rfl, hm⟩]

/-- An exact square root of a positive scalar is not zero. -/
theorem SqrtExact.sqrt_ne_zero {K : Type} [LinearOrderedField K] (S : Scalar K)
    (hS : SqrtExact S) (x : K) (hx : 0 < x) : S.sqrt x ≠ 0 := by
  intro h
  have := (hS x (le_of_lt hx)).2
  rw [h, mul_zero] at this
  exact absurd this (ne_of_lt hx)

/-- C18: for every `n ≥ 1` and every `n×2` table with `βᵢ > 0` for `1 ≤ i < n`, the real
symmetric matrix `tridiagCoeffs(coeffs, n)` has an orthonormal eigen-decomposition, and in
every exact eigen-decomposition its `n` eigenvalues are pairwise distinct; hence, when
the table of `log_nw(n)` has positive `βᵢ` and the eigen-solver is exact, the nodes in
column 0 of `log_nw(n)` are pairwise distinct reals. -/
theorem jacobi_eigenvalues_distinct (S : Scalar ℝ) (hS : SqrtExact S) (coeffs : Mat ℝ)
    (n : Nat) (hn : 1 ≤ n) (hr : coeffs.rows = n) (hc : coeffs.cols = 2)
    (hβ : ∀ i : Nat, 1 ≤ i → i < n → 0 < coeffs.get i 1) :
    (∃ J : Mat ℝ, tridiagCoeffs S coeffs n = some J ∧
      (∀ i j : Nat, J.get i j = J.get j i) ∧
      ExactEigen n J (spectralSolve J) ∧
      ∀ r : EigenResult ℝ, ExactEigen n J r →
        ∀ i j : Nat, i < n → j < n → i ≠ j → r.eigenvalues.get i ≠ r.eigenvalues.get j) ∧
    (∀ solve : Mat ℝ → EigenResult ℝ,
      (∀ i : Nat, 1 ≤ i → i < n → 0 < (chebyshev_mom n (mom_jaclog S n)).get i 1) →
      (∀ J : Mat ℝ, tridiagCoeffs S (chebyshev_mom n (mom_jaclog S n)) n = some J →
        ExactEigen n J (solve J)) →
      ∃ nw : Mat ℝ, log_nw S solve n = some nw ∧ nw.rows = n ∧
        ∀ i j : Nat, i < n → j < n → i ≠ j → nw.get i 0 ≠ nw.get j 0) := by
  constructor
  · obtain ⟨J, hJ, hrows, hsymm, hup, hsup⟩ := tridiagCoeffs_shape S coeffs n hn hr hc
    refine ⟨J, hJ, hsymm, spectralSolve_exact n J hrows hsymm, ?_⟩
    intro r hE i j hi hj hij
    refine jacobi_simple_spectrum n J hup ?_ r hE i j hi hj hij
    intro m hm
    rw [hsup m hm]
    exact SqrtExact.sqrt_ne_zero S hS _ (hβ (m + 1) (by omega) hm)
  · intro solve hpos hsolve
    obtain ⟨J, hJ, _, _, hup, hsup⟩ := tridiagCoeffs_shape S
      (chebyshev_mom n (mom_jaclog S n)) n hn (chebyshev_dims n _ _).1 (chebyshev_dims n _ _).2
    obtain ⟨nw, hnw, hrows, _, hx, _⟩ := log_nw_get S solve n J hJ
    refine ⟨nw, hnw, hrows, ?_⟩
    intro i j hi hj hij
    rw [hx i hi, hx j hj]
    refine jacobi_simple_spectrum n J hup ?_ (solve J) (hsolve J hJ) i j hi hj hij
    intro m hm
    rw [hsup m hm]
    exact SqrtExact.sqrt_ne_zero S hS _ (hpos (m + 1) (by omega) hm)

/-- Witness for C18: the table `[(2, 7), (3, 4)]` over the reals. -/
theorem jacobi_eigenvalues_distinct_witness :
    (SqrtExact realScalar ∧ 1 ≤ 2 ∧ (sampleTable (7 : ℝ)).rows = 2 ∧
      (sampleTable (7 : ℝ)).cols = 2 ∧
      ∀ i : Nat, 1 ≤ i → i < 2 → 0 < (sampleTable (7 : ℝ)).get i 1) ∧
    ∃ J : Mat ℝ, tridiagCoeffs realScalar (sampleTable 7) 2 = some J ∧
      (∀ i j : Nat, J.get i j = J.get j i) ∧
      ExactEigen 2 J (spectralSolve J) ∧
      ∀ r : EigenResult ℝ, ExactEigen 2 J r →
        ∀ i j : Nat, i < 2 → j < 2 → i ≠ j → r.eigenvalues.get i ≠ r.eigenvalues.get j := by
  have hβ : ∀ i : Nat, 1 ≤ i → i < 2 → 0 < (sampleTable (7 : ℝ)).get i 1 := by
    intro i h1 h2
    have : i = 1 := by omega
    subst this
    simp [sampleTable, Mat.set, Mat.Zero]
  exact ⟨⟨realScalar_sqrtExact, by decide, rfl, rfl, hβ⟩,
    (jacobi_eigenvalues_distinct realScalar realScalar_sqrtExact (sampleTable 7) 2 (by decide)
      rfl rfl hβ).1⟩

/-- Witness for C3: `n = 3` over the reals, with the orthonormal eigen-decomposition of
the `3×3` Jacobi matrix that the spectral theorem provides. -/
theorem log_nw_weights_sum_witness :
    (1 ≤ 3 ∧ GammaExact realScalar ∧ DigammaExact realScalar ∧ realScalar.sqrt 1 = 1 ∧
      ∀ J : Mat ℝ, tridiagCoeffs realScalar (chebyshev_mom 3 (mom_jaclog realScalar 3)) 3
        = some J → ExactEigen 3 J (spectralSolve J)) ∧
    ∃ nw : Mat ℝ, log_nw realScalar spectralSolve 3 = some nw ∧ nw.rows = 3 ∧ nw.cols = 2 ∧
      Finset.sum (Finset.range 3) (fun i => nw.get i 1) = (mom_jaclog realScalar 3).get 0 :=
  ⟨⟨by decide, realScalar_gammaExact, realScalar_digammaExact,
      SqrtExact.sqrt_one realScalar realScalar_sqrtExact,
      spectralSolve_exact_jacobi 3 (by decide)⟩,
    log_nw_weights_sum realScalar spectralSolve 3 (by decide) realScalar_gammaExact
      realScalar_digammaExact (SqrtExact.sqrt_one realScalar realScalar_sqrtExact)
      (spectralSolve_exact_jacobi 3 (by decide))⟩

end GQLog
